import Mathlib

/-!
# Linked-list queue of `queue.c`

A shallow embedding of the queue of `queue.c` over an explicit heap of list
elements, followed by theorems about its operations.

* A pointer to a list element is `Option Nat`: `none` is `NULL`.
* The heap maps an address to the element allocated there (`none`: nothing
  allocated).  Reading or writing through `NULL` or through an address that
  is not allocated has no defined result: the operation returns `none`.
* `while` loops and the recursion of `merge_sort` take a fuel argument; a
  loop that is out of fuel returns `none` as well.
* What `malloc` and `strdup` return is an argument of the inserting
  operations, so every behaviour of the allocator is covered.
* `size_t` is 64 bits wide: arithmetic on it is taken modulo `2 ^ 64`.
-/

namespace Queue

/-- Pointer to a list element: `none` is `NULL`, `some a` is the address `a`. -/
abbrev Ptr := Option Nat

/-- Modelled from the spec: `queue.h` is not among the sources. A node holds
one owned text value (here the bytes of the C string before its terminator)
and a reference to the next node, or none. Field names are those `queue.c`
uses. -/
structure list_ele_t where
  value : List Nat
  next : Ptr
deriving DecidableEq, Repr

/-- Modelled from the spec: `queue.h` is not among the sources. A queue holds
a reference to the first node, a reference to the last node and a count of
nodes. Field names are those `queue.c` uses. -/
structure queue_t where
  head : Ptr
  tail : Ptr
  size : Nat
deriving DecidableEq, Repr

/-- Heap of list elements, by address. -/
abbrev Heap := Nat → Option list_ele_t

/-- Program state: the queue object `q` points to (`none` when `q` is `NULL`)
and the heap of list elements. -/
structure Store where
  q : Option queue_t
  mem : Heap

/-- Number of values of `size_t`. -/
def SIZE_MOD : Nat := 2 ^ 64

/-- The heap with nothing allocated. -/
def emptyHeap : Heap := fun _ => none

/-- Read of `*p`. -/
def load (h : Heap) (p : Ptr) : Option list_ele_t :=
  match p with
  | none => none
  | some a => h a

/-- Assignment `a->next = nx`. -/
def store_next (h : Heap) (a : Nat) (nx : Ptr) : Option Heap :=
  match h a with
  | none => none
  | some e => some (Function.update h a (some ⟨e.value, nx⟩))

/-- Call `free(a)` on a list element. -/
def free (h : Heap) (a : Nat) : Option Heap :=
  match h a with
  | none => none
  | some _ => some (Function.update h a none)

/-- Sign of `strcmp`: bytes are compared as unsigned values, a proper
initial segment is smaller. -/
def strcmp : List Nat → List Nat → Int
  | [], [] => 0
  | [], _ :: _ => -1
  | _ :: _, [] => 1
  | a :: as, b :: bs => if a < b then -1 else if b < a then 1 else strcmp as bs

/-- Call `strncpy(dst, src, n)`: exactly `n` bytes of `dst` are written, the
bytes of `src` first and zeros once `src` has ended. -/
def strncpy : List Nat → List Nat → Nat → Option (List Nat)
  | dst, _, 0 => some dst
  | [], _, _ + 1 => none
  | _ :: dst, [], n + 1 => (strncpy dst [] n).map (fun r => 0 :: r)
  | _ :: dst, c :: src, n + 1 => (strncpy dst src n).map (fun r => c :: r)

/-- Assignment `sp[i] = c`. -/
def store_byte (sp : List Nat) (i : Nat) (c : Nat) : Option (List Nat) :=
  if i < sp.length then some (sp.set i c) else none

/-- Function `q_new`; `ok` tells whether `malloc` succeeded. -/
def q_new (ok : Bool) (mem : Heap) : Store :=
  if ok then ⟨some ⟨none, none, 0⟩, mem⟩ else ⟨none, mem⟩

/-- Function `q_insert_head`; `newh` is what `malloc` returns and `dup` tells
whether `strdup` succeeded. -/
def q_insert_head (st : Store) (s : List Nat) (newh : Ptr) (dup : Bool) :
    Option (Bool × Store) :=
  match st.q with
  | none => some (false, st)
  | some q =>
    match newh with
    | none => some (false, st)
    | some a =>
      let mem1 := Function.update st.mem a (some ⟨[], none⟩)
      if dup = false then
        (free mem1 a).map (fun m => (false, ⟨some q, m⟩))
      else
        let mem2 := Function.update mem1 a (some ⟨s, q.head⟩)
        let tail1 := if q.tail = none then some a else q.tail
        some (true, ⟨some ⟨some a, tail1, (q.size + 1) % SIZE_MOD⟩, mem2⟩)

/-- Function `q_insert_tail`; `newt` is what `malloc` returns and `dup` tells
whether `strdup` succeeded. -/
def q_insert_tail (st : Store) (s : List Nat) (newt : Ptr) (dup : Bool) :
    Option (Bool × Store) :=
  match st.q with
  | none => some (false, st)
  | some q =>
    match newt with
    | none => some (false, st)
    | some a =>
      let mem1 := Function.update st.mem a (some ⟨[], none⟩)
      if dup = false then
        (free mem1 a).map (fun m => (false, ⟨some q, m⟩))
      else
        let mem2 := Function.update mem1 a (some ⟨s, none⟩)
        match q.tail with
        | none => some (true, ⟨some ⟨some a, some a, (q.size + 1) % SIZE_MOD⟩, mem2⟩)
        | some t =>
          (store_next mem2 t (some a)).map
            (fun m => (true, ⟨some ⟨q.head, some a, (q.size + 1) % SIZE_MOD⟩, m⟩))

/-- Result of `q_remove_head`: the value returned, the state, and the
caller's buffer. -/
structure RemoveResult where
  ret : Bool
  st : Store
  sp : Option (List Nat)

/-- Function `q_remove_head`; `sp` is the caller's buffer (`none` for a
`NULL` pointer) and `bufsize` the capacity passed with it. -/
def q_remove_head (st : Store) (sp : Option (List Nat)) (bufsize : Nat) :
    Option RemoveResult :=
  match st.q with
  | none => some ⟨false, st, sp⟩
  | some q =>
    match q.head with
    | none => some ⟨false, st, sp⟩
    | some a =>
      match st.mem a with
      | none => none
      | some e =>
        let copied : Option (Option (List Nat)) :=
          match sp with
          | none => some none
          | some buf =>
            if bufsize = 0 then some (some buf)
            else
              ((strncpy buf e.value ((bufsize + SIZE_MOD - 1) % SIZE_MOD)).bind
                (fun b => store_byte b ((bufsize + SIZE_MOD - 1) % SIZE_MOD) 0)).map some
        match copied with
        | none => none
        | some sp1 =>
          (free st.mem a).map
            (fun m => ⟨true, ⟨some ⟨e.next, q.tail, (q.size + SIZE_MOD - 1) % SIZE_MOD⟩, m⟩, sp1⟩)

/-- Function `q_size`. -/
def q_size (st : Store) : Nat :=
  match st.q with
  | none => 0
  | some q => if q.head = none then 0 else q.size

/-- Loop of `q_reverse`, from the values of `curr` and `prev`; it yields the
heap and `prev` at the exit. -/
def q_reverse_loop : Nat → Heap → Ptr → Ptr → Option (Heap × Ptr)
  | _, h, none, prev => some (h, prev)
  | 0, _, some _, _ => none
  | n + 1, h, some c, prev =>
    match h c with
    | none => none
    | some e => q_reverse_loop n (Function.update h c (some ⟨e.value, prev⟩)) e.next (some c)

/-- Function `q_reverse`. -/
def q_reverse (fuel : Nat) (st : Store) : Option Store :=
  match st.q with
  | none => some st
  | some q =>
    match q.head with
    | none => some st
    | some a =>
      match st.mem a with
      | none => none
      | some e =>
        if e.next = none then some st
        else
          (q_reverse_loop fuel st.mem q.head none).map
            (fun r => ⟨some ⟨r.2, q.head, q.size⟩, r.1⟩)

/-- Loop of `split`, from the values of `slow` and `fast`; it yields `slow`
at the exit. -/
def split_loop : Nat → Heap → Ptr → Ptr → Option Ptr
  | _, _, slow, none => some slow
  | 0, _, _, some _ => none
  | n + 1, h, slow, some f =>
    match h f with
    | none => none
    | some fe =>
      match fe.next with
      | none => some slow
      | some g =>
        match load h slow, h g with
        | some se, some ge => split_loop n h se.next ge.next
        | _, _ => none

/-- Function `split`: the heap after the call with `*front` and `*back`. -/
def split (fuel : Nat) (h : Heap) (src : Ptr) : Option (Heap × Ptr × Ptr) :=
  match load h src with
  | none => none
  | some e =>
    match split_loop fuel h src e.next with
    | none => none
    | some none => none
    | some (some s) =>
      match h s with
      | none => none
      | some se => some (Function.update h s (some ⟨se.value, none⟩), src, se.next)

/-- State of the loop of `merge_list`. The local `list` and the place
`indirect` points to: `none` for `&list`, `some a` for `&a->next`. -/
structure MergeState where
  mem : Heap
  list : Ptr
  indirect : Option Nat
  l : Ptr
  r : Ptr

/-- Assignment `*indirect = p` in `merge_list`. -/
def store_indirect (s : MergeState) (p : Ptr) : Option MergeState :=
  match s.indirect with
  | none => some ⟨s.mem, p, s.indirect, s.l, s.r⟩
  | some a => (store_next s.mem a p).map (fun m => ⟨m, s.list, s.indirect, s.l, s.r⟩)

/-- Loop of `merge_list`. -/
def merge_loop : Nat → MergeState → Option MergeState
  | 0, s =>
    match s.l, s.r with
    | some _, some _ => none
    | _, _ => some s
  | n + 1, s =>
    match s.l, s.r with
    | some l, some r =>
      match s.mem l, s.mem r with
      | some le, some re =>
        if strcmp le.value re.value < 0 then
          match store_indirect s (some l) with
          | none => none
          | some s1 =>
            match s1.mem l with
            | none => none
            | some l1 => merge_loop n ⟨s1.mem, s1.list, some l, l1.next, s1.r⟩
        else
          match store_indirect s (some r) with
          | none => none
          | some s1 =>
            match s1.mem r with
            | none => none
            | some r1 => merge_loop n ⟨s1.mem, s1.list, some r, s1.l, r1.next⟩
      | _, _ => none
    | _, _ => some s

/-- End of `merge_list`, after the loop: the two conditional assignments
through `indirect`, then `*head = list`. -/
def merge_finish (s : MergeState) : Option (Heap × Ptr) :=
  match (if s.l = none then some s else store_indirect s s.l) with
  | none => none
  | some s1 =>
    match (if s1.r = none then some s1 else store_indirect s1 s1.r) with
    | none => none
    | some s2 => some (s2.mem, s2.list)

/-- Function `merge_list`: the heap after the call with `*head`. -/
def merge_list (fuel : Nat) (h : Heap) (l r : Ptr) : Option (Heap × Ptr) :=
  match merge_loop fuel ⟨h, none, none, l, r⟩ with
  | none => none
  | some s => merge_finish s

/-- Function `merge_sort`: from the heap and `*head` before the call to the
heap and `*head` after it. -/
def merge_sort : Nat → Heap → Ptr → Option (Heap × Ptr)
  | 0, _, _ => none
  | n + 1, h, head =>
    match head with
    | none => some (h, head)
    | some a =>
      match h a with
      | none => none
      | some e =>
        if e.next = none then some (h, head)
        else
          match split (n + 1) h head with
          | none => none
          | some (h1, left, right) =>
            match merge_sort n h1 left with
            | none => none
            | some (h2, left2) =>
              match merge_sort n h2 right with
              | none => none
              | some (h3, right2) => merge_list (n + 1) h3 left2 right2

/-- Loop at the end of `q_sort`, from the value of `walk`; it yields `walk`
at the exit. -/
def q_sort_walk : Nat → Heap → Ptr → Option Ptr
  | _, _, none => some none
  | 0, _, some _ => none
  | n + 1, h, some w =>
    match h w with
    | none => none
    | some e => q_sort_walk n h e.next

/-- Function `q_sort`. -/
def q_sort (fuel : Nat) (st : Store) : Option Store :=
  match st.q with
  | none => some st
  | some q =>
    match q.head with
    | none => some st
    | some _ =>
      match merge_sort fuel st.mem q.head with
      | none => none
      | some (h1, head1) =>
        match q_sort_walk fuel h1 head1 with
        | none => none
        | some walk => some ⟨some ⟨head1, walk, q.size⟩, h1⟩

/-! ## Notions the statements use -/

/-- List segment: from `p`, following `next`, the heap holds the elements at
the addresses `xs` in this order, and the `next` of the last one is `r`. -/
def lseg (h : Heap) : Ptr → List Nat → Ptr → Prop
  | p, [], r => p = r
  | p, a :: as, r =>
    p = some a ∧
      match h a with
      | some e => lseg h e.next as r
      | none => False

/-- Chain from `p`: the elements at the addresses `xs`, in this order, the
last one with `next` equal to `NULL`. -/
def chain (h : Heap) (p : Ptr) (xs : List Nat) : Prop := lseg h p xs none

instance lseg_decidable (h : Heap) : ∀ (p : Ptr) (xs : List Nat) (r : Ptr),
    Decidable (lseg h p xs r)
  | p, [], r => by unfold lseg; infer_instance
  | p, a :: as, r => by
    unfold lseg
    cases h a with
    | none => exact inferInstanceAs (Decidable (p = some a ∧ False))
    | some e =>
      have := lseg_decidable h e.next as r
      exact inferInstanceAs (Decidable (p = some a ∧ lseg h e.next as r))

instance chain_decidable (h : Heap) (p : Ptr) (xs : List Nat) : Decidable (chain h p xs) :=
  lseg_decidable h p xs none

/-- Value stored in the element at address `a` (empty when nothing is
allocated there). -/
def valueAt (h : Heap) (a : Nat) : List Nat :=
  match h a with
  | some e => e.value
  | none => []

/-- Values read along the addresses `xs`. -/
def values (h : Heap) (xs : List Nat) : List (List Nat) := xs.map (valueAt h)

/-- Every element keeps its value, and the same addresses are allocated. -/
def sameValues (h h2 : Heap) : Prop :=
  ∀ a, (h2 a).map (fun e => e.value) = (h a).map (fun e => e.value)

/-- Nothing changes at the addresses outside `xs`. -/
def unchangedOff (xs : List Nat) (h h2 : Heap) : Prop :=
  ∀ a, a ∉ xs → h2 a = h a

/-- Ascending order of values as `strcmp` decides it. -/
def strLe (a b : List Nat) : Prop := strcmp a b ≤ 0

instance strLe_decidable : DecidableRel strLe := fun a b =>
  inferInstanceAs (Decidable (strcmp a b ≤ 0))

/-- Test of the loop of `merge_list` on heads holding the values of `a` and
`b`: whether the left one is taken. -/
def takesLeft (v : Nat → List Nat) (a b : Nat) : Bool := decide (strcmp (v a) (v b) < 0)

/-- Order in which `merge_list` links the elements of two chains `xs` and
`ys`, `v` giving the value of an element. -/
def mergeAddrs (v : Nat → List Nat) (xs ys : List Nat) : List Nat :=
  List.merge xs ys (takesLeft v)

/-- Order in which `merge_sort` leaves the elements of a chain `xs`: the
first half, of `(n + 1) / 2` elements, and the rest are sorted and merged. -/
def sortAddrs (v : Nat → List Nat) (xs : List Nat) : List Nat :=
  if xs.length < 2 then xs
  else
    mergeAddrs v (sortAddrs v (xs.take ((xs.length + 1) / 2)))
      (sortAddrs v (xs.drop ((xs.length + 1) / 2)))
termination_by xs.length
decreasing_by
  all_goals simp_wf
  all_goals omega

/-- The place `indirect` of `merge_list` refers to holds the start of the
chain `zs`: the local `list` when `indirect` is none, the `next` of the
element `a` when it is `some a`. -/
def placeHoldsChain (h : Heap) (list : Ptr) : Option Nat → List Nat → Prop
  | none, zs => chain h list zs
  | some a, zs => ∃ e, h a = some e ∧ chain h e.next zs

/-- Well-formed queue with contents `xs` (addresses of its elements from
head to tail): the chain from `head` is `xs`, `tail` is the last of them
(none when there is none), and `size` counts them. -/
def wellFormed (st : Store) (xs : List Nat) : Prop :=
  match st.q with
  | none => False
  | some q => chain st.mem q.head xs ∧ q.tail = xs.getLast? ∧ q.size = xs.length ∧
      q.size < SIZE_MOD

/-- C string held by a buffer: the bytes before the first zero byte. -/
def cstr (buf : List Nat) : List Nat := buf.takeWhile (fun c => c ≠ 0)

/-- Call of a queue operation, with what the environment supplies to it. -/
inductive Op where
  | insert_head (s : List Nat) (newh : Ptr) (dup : Bool)
  | insert_tail (s : List Nat) (newt : Ptr) (dup : Bool)
  | remove_head (sp : Option (List Nat)) (bufsize : Nat)
  | reverse (fuel : Nat)
  | sort (fuel : Nat)

/-- The allocator may answer a call like this: an address `malloc` returns
is not in use. -/
def Op.possible (st : Store) : Op → Bool
  | Op.insert_head _ (some a) _ => (st.mem a).isNone
  | Op.insert_tail _ (some a) _ => (st.mem a).isNone
  | _ => true

/-- One call: the value returned (none for a function returning `void`) and
the state after it. -/
def step (st : Store) : Op → Option (Option Bool × Store)
  | Op.insert_head s newh dup => (q_insert_head st s newh dup).map (fun r => (some r.1, r.2))
  | Op.insert_tail s newt dup => (q_insert_tail st s newt dup).map (fun r => (some r.1, r.2))
  | Op.remove_head sp bufsize => (q_remove_head st sp bufsize).map (fun r => (some r.ret, r.st))
  | Op.reverse fuel => (q_reverse fuel st).map (fun r => (none, r))
  | Op.sort fuel => (q_sort fuel st).map (fun r => (none, r))

/-- A sequence of calls from the state `st`: the values returned and the
last state. There is no result when a call has none or when the allocator
could not have answered as the call says. -/
def run : Store → List Op → Option (List (Option Bool) × Store)
  | st, [] => some ([], st)
  | st, op :: ops =>
    if op.possible st then
      match step st op with
      | none => none
      | some (b, st1) =>
        match run st1 ops with
        | none => none
        | some (bs, st2) => some (b :: bs, st2)
    else none

/-- Number of insert calls of `ops` that returned true minus the number of
remove calls that returned true, given the values `rets` the calls returned. -/
def netInserted : List Op → List (Option Bool) → Int
  | Op.insert_head _ _ _ :: ops, some true :: rets => netInserted ops rets + 1
  | Op.insert_tail _ _ _ :: ops, some true :: rets => netInserted ops rets + 1
  | Op.remove_head _ _ :: ops, some true :: rets => netInserted ops rets - 1
  | _ :: ops, _ :: rets => netInserted ops rets
  | _, _ => 0

/-- Queue invariant of the data model: `size` is zero exactly when `head` is
none, `head` is none exactly when `tail` is none, and a non-empty queue has
exactly `size` elements on the chain from `head`, the last of which is
`tail`. -/
def invariant (st : Store) : Prop :=
  match st.q with
  | none => True
  | some q =>
    (q.size = 0 ↔ q.head = none) ∧ (q.head = none ↔ q.tail = none) ∧
      (q.head ≠ none → ∃ xs : List Nat, chain st.mem q.head xs ∧ xs.length = q.size ∧
        q.tail = xs.getLast?)

/-- A newly created queue over an empty heap. -/
def fresh : Store := q_new true emptyHeap

/-- The queue after insert-tail of "b", "a" and "c", the elements at the
addresses 1, 2 and 3. -/
def bacStore : Store :=
  ⟨some ⟨some 1, some 3, 3⟩, fun a =>
    if a = 1 then some ⟨[98], some 2⟩
    else if a = 2 then some ⟨[97], some 3⟩
    else if a = 3 then some ⟨[99], none⟩
    else none⟩

/-- The queue holding only "banana", at the address 1. -/
def bananaStore : Store :=
  ⟨some ⟨some 1, some 1, 1⟩, fun a =>
    if a = 1 then some ⟨[98, 97, 110, 97, 110, 97], none⟩ else none⟩

/-- The queue holding "a" twice, at the addresses 1 and 2. -/
def tieStore : Store :=
  ⟨some ⟨some 1, some 2, 2⟩, fun a =>
    if a = 1 then some ⟨[97], some 2⟩
    else if a = 2 then some ⟨[97], none⟩
    else none⟩

instance wellFormed_decidable (st : Store) (xs : List Nat) : Decidable (wellFormed st xs) :=
  match hq : st.q with
  | none => isFalse (by simp [wellFormed, hq])
  | some q =>
    if h : chain st.mem q.head xs ∧ q.tail = xs.getLast? ∧ q.size = xs.length ∧
        q.size < SIZE_MOD then
      isTrue (by simpa [wellFormed, hq] using h)
    else isFalse (by simpa [wellFormed, hq] using h)


/-! ## Segments and chains -/

theorem lseg_nil_iff (h : Heap) (p r : Ptr) : lseg h p [] r ↔ p = r := by
  unfold lseg; exact Iff.rfl

theorem lseg_cons_iff (h : Heap) (p : Ptr) (a : Nat) (as : List Nat) (r : Ptr) :
    lseg h p (a :: as) r ↔ p = some a ∧ ∃ e, h a = some e ∧ lseg h e.next as r := by
  rw [lseg]
  cases h a <;> simp

theorem chain_nil_iff (h : Heap) (p : Ptr) : chain h p [] ↔ p = none :=
  lseg_nil_iff h p none

theorem chain_cons_iff (h : Heap) (p : Ptr) (a : Nat) (as : List Nat) :
    chain h p (a :: as) ↔ p = some a ∧ ∃ e, h a = some e ∧ chain h e.next as :=
  lseg_cons_iff h p a as none

theorem lseg_append_iff (h : Heap) (xs ys : List Nat) (p r : Ptr) :
    lseg h p (xs ++ ys) r ↔ ∃ m, lseg h p xs m ∧ lseg h m ys r := by
  induction xs generalizing p with
  | nil => simp [lseg_nil_iff]
  | cons a as ih =>
    simp only [List.cons_append, lseg_cons_iff, ih]
    constructor
    · rintro ⟨hp, e, he, m, h1, h2⟩
      exact ⟨m, ⟨hp, e, he, h1⟩, h2⟩
    · rintro ⟨m, ⟨hp, e, he, h1⟩, h2⟩
      exact ⟨hp, e, he, m, h1, h2⟩

theorem lseg_congr {h h2 : Heap} {xs : List Nat} {p r : Ptr}
    (heq : ∀ a ∈ xs, h2 a = h a) (hc : lseg h p xs r) : lseg h2 p xs r := by
  induction xs generalizing p with
  | nil => simpa [lseg_nil_iff] using hc
  | cons a as ih =>
    rw [lseg_cons_iff] at hc ⊢
    obtain ⟨hp, e, he, hrest⟩ := hc
    refine ⟨hp, e, ?_, ih (fun b hb => heq b (List.mem_cons_of_mem _ hb)) hrest⟩
    rw [heq a (List.mem_cons_self _ _)]; exact he

theorem chain_congr {h h2 : Heap} {xs : List Nat} {p : Ptr}
    (heq : ∀ a ∈ xs, h2 a = h a) (hc : chain h p xs) : chain h2 p xs :=
  lseg_congr heq hc

theorem chain_functional {h : Heap} {p : Ptr} {xs ys : List Nat}
    (hx : chain h p xs) (hy : chain h p ys) : xs = ys := by
  induction xs generalizing p ys with
  | nil =>
    rw [chain_nil_iff] at hx
    cases ys with
    | nil => rfl
    | cons b bs => rw [chain_cons_iff] at hy; simp [hx] at hy
  | cons a as ih =>
    rw [chain_cons_iff] at hx
    obtain ⟨hp, e, he, hrest⟩ := hx
    cases ys with
    | nil => rw [chain_nil_iff] at hy; simp [hp] at hy
    | cons b bs =>
      rw [chain_cons_iff] at hy
      obtain ⟨hp2, e2, he2, hrest2⟩ := hy
      have hab : a = b := by rw [hp] at hp2; exact Option.some.inj hp2
      subst hab
      rw [he] at he2
      cases he2
      rw [ih hrest hrest2]

theorem chain_head_not_mem {h : Heap} {a : Nat} {e : list_ele_t} {as : List Nat}
    (he : h a = some e) (hc : chain h e.next as) : a ∉ as := by
  intro hmem
  obtain ⟨l1, l2, hsplit⟩ := List.append_of_mem hmem
  have hc2 : chain h e.next (l1 ++ a :: l2) := by rw [← hsplit]; exact hc
  unfold chain at hc2
  rw [lseg_append_iff] at hc2
  obtain ⟨m, _, hm⟩ := hc2
  have hm2 := hm
  rw [lseg_cons_iff] at hm2
  obtain ⟨_, e2, he2, hrest⟩ := hm2
  rw [he] at he2
  cases he2
  have := chain_functional hc hrest
  have hlen := congrArg List.length hsplit
  rw [this] at hlen
  simp at hlen
  omega

theorem chain_nodup {h : Heap} {p : Ptr} {xs : List Nat} (hc : chain h p xs) : xs.Nodup := by
  induction xs generalizing p with
  | nil => exact List.nodup_nil
  | cons a as ih =>
    rw [chain_cons_iff] at hc
    obtain ⟨_, e, he, hrest⟩ := hc
    exact List.nodup_cons.mpr ⟨chain_head_not_mem he hrest, ih hrest⟩

theorem chain_allocated {h : Heap} {p : Ptr} {xs : List Nat} (hc : chain h p xs) :
    ∀ a ∈ xs, ∃ e, h a = some e := by
  induction xs generalizing p with
  | nil => simp
  | cons a as ih =>
    rw [chain_cons_iff] at hc
    obtain ⟨_, e, he, hrest⟩ := hc
    intro b hb
    rcases List.mem_cons.mp hb with rfl | hb
    · exact ⟨e, he⟩
    · exact ih hrest b hb

theorem sameValues_refl (h : Heap) : sameValues h h := fun _ => rfl

theorem sameValues_trans {h1 h2 h3 : Heap} (h12 : sameValues h1 h2) (h23 : sameValues h2 h3) :
    sameValues h1 h3 := fun a => (h23 a).trans (h12 a)

theorem sameValues_update_next {h : Heap} {a : Nat} {e : list_ele_t} (he : h a = some e)
    (nx : Ptr) : sameValues h (Function.update h a (some ⟨e.value, nx⟩)) := by
  intro b
  by_cases hb : b = a
  · subst hb; simp [he]
  · simp [Function.update_noteq hb]

theorem valueAt_eq_of_sameValues {h h2 : Heap} (hs : sameValues h h2) : valueAt h2 = valueAt h := by
  funext a
  have := hs a
  unfold valueAt
  cases h1 : h a <;> cases h3 : h2 a <;> simp [h1, h3] at this ⊢
  exact this


/-! ## Reversal -/

theorem update_of_mem {h : Heap} {c : Nat} {v : Option list_ele_t} {xs : List Nat}
    (hc : c ∉ xs) : ∀ a ∈ xs, Function.update h c v a = h a :=
  fun a ha => Function.update_noteq (by rintro rfl; exact hc ha) _ _

theorem chain_ptr_eq {h : Heap} {p : Ptr} {xs : List Nat} (hc : chain h p xs) : p = xs.head? := by
  cases xs with
  | nil => simpa [chain_nil_iff] using hc
  | cons a as => rw [chain_cons_iff] at hc; simpa using hc.1

theorem chain_determines {h h2 : Heap} {p p2 : Ptr} {xs : List Nat} (hc : chain h p xs)
    (hc2 : chain h2 p2 xs) (hs : sameValues h h2) : ∀ a ∈ xs, h2 a = h a := by
  induction xs generalizing p p2 with
  | nil => simp
  | cons a as ih =>
    rw [chain_cons_iff] at hc hc2
    obtain ⟨_, e, he, hrest⟩ := hc
    obtain ⟨_, e2, he2, hrest2⟩ := hc2
    intro b hb
    rcases List.mem_cons.mp hb with rfl | hb
    · have hv := hs b
      rw [he, he2] at hv
      have hn : e2.next = e.next := (chain_ptr_eq hrest2).trans (chain_ptr_eq hrest).symm
      rw [he, he2]
      cases e; cases e2
      simp at hv hn ⊢
      exact ⟨hv, hn⟩
    · exact ih hrest hrest2 b hb

theorem chain_last_next {h : Heap} {p : Ptr} {xs : List Nat} (hc : chain h p xs) :
    ∀ t, xs.getLast? = some t → ∃ e, h t = some e ∧ e.next = none := by
  induction xs generalizing p with
  | nil => simp
  | cons a as ih =>
    rw [chain_cons_iff] at hc
    obtain ⟨_, e, he, hrest⟩ := hc
    intro t ht
    cases as with
    | nil =>
      simp at ht
      subst ht
      exact ⟨e, he, by simpa [chain_nil_iff] using hrest⟩
    | cons b bs =>
      rw [List.getLast?_cons_cons] at ht
      exact ih hrest t ht

theorem q_reverse_loop_none (fuel : Nat) (h : Heap) (prev : Ptr) :
    q_reverse_loop fuel h none prev = some (h, prev) := by
  cases fuel <;> rfl

theorem q_reverse_loop_spec (xs : List Nat) : ∀ (h : Heap) (curr prev : Ptr) (ys : List Nat)
    (fuel : Nat), chain h curr xs → chain h prev ys → (∀ a ∈ xs, a ∉ ys) → xs.length ≤ fuel →
    ∃ h2 p2, q_reverse_loop fuel h curr prev = some (h2, p2) ∧ chain h2 p2 (xs.reverse ++ ys) ∧
      unchangedOff xs h h2 ∧ sameValues h h2 := by
  induction xs with
  | nil =>
    intro h curr prev ys fuel hc hp _ _
    rw [chain_nil_iff] at hc
    subst hc
    exact ⟨h, prev, q_reverse_loop_none fuel h prev, by simpa using hp, fun _ _ => rfl,
      sameValues_refl h⟩
  | cons c cs ih =>
    intro h curr prev ys fuel hc hp hdisj hfuel
    have hnd := chain_nodup hc
    rw [chain_cons_iff] at hc
    obtain ⟨hcurr, e, he, hrest⟩ := hc
    subst hcurr
    obtain ⟨n, rfl⟩ : ∃ n, fuel = n + 1 := ⟨fuel - 1, by simp at hfuel; omega⟩
    have hc_cs : c ∉ cs := (List.nodup_cons.mp hnd).1
    have hc_ys : c ∉ ys := hdisj c (List.mem_cons_self _ _)
    have hrest1 : chain (Function.update h c (some ⟨e.value, prev⟩)) e.next cs :=
      chain_congr (update_of_mem hc_cs) hrest
    have hprev1 : chain (Function.update h c (some ⟨e.value, prev⟩)) (some c) (c :: ys) := by
      rw [chain_cons_iff]
      exact ⟨rfl, ⟨e.value, prev⟩, by simp,
        chain_congr (update_of_mem hc_ys) hp⟩
    have hdisj1 : ∀ a ∈ cs, a ∉ c :: ys := by
      intro a ha hmem
      rcases List.mem_cons.mp hmem with rfl | hmem
      · exact hc_cs ha
      · exact hdisj a (List.mem_cons_of_mem _ ha) hmem
    obtain ⟨h2, p2, hrun, hchain, hoff, hsame⟩ :=
      ih _ e.next (some c) (c :: ys) n hrest1 hprev1 hdisj1 (by simp at hfuel; omega)
    refine ⟨h2, p2, ?_, ?_, ?_, ?_⟩
    · simp only [q_reverse_loop, he]
      exact hrun
    · simpa using hchain
    · intro a ha
      have hac : a ≠ c := fun hac => ha (hac ▸ List.mem_cons_self _ _)
      rw [hoff a (fun hmem => ha (List.mem_cons_of_mem _ hmem))]
      exact Function.update_noteq hac _ _
    · exact sameValues_trans (sameValues_update_next he prev) hsame

/-- What `q_reverse` does to a well-formed queue. -/
theorem q_reverse_spec (st : Store) (xs : List Nat) (fuel : Nat) (hwf : wellFormed st xs)
    (hfuel : xs.length ≤ fuel) :
    ∃ q st2 q2, st.q = some q ∧ q_reverse fuel st = some st2 ∧ st2.q = some q2 ∧
      chain st2.mem q2.head xs.reverse ∧ q2.head = q.tail ∧ q2.tail = q.head ∧
      q2.size = q.size ∧ sameValues st.mem st2.mem ∧ unchangedOff xs st.mem st2.mem := by
  obtain ⟨sq, mem⟩ := st
  cases sq with
  | none => exact absurd hwf (by simp [wellFormed])
  | some q =>
    simp only [wellFormed] at hwf
    obtain ⟨hc, htail, hsize, _⟩ := hwf
    refine ⟨q, ?_⟩
    cases xs with
    | nil =>
      rw [chain_nil_iff] at hc
      refine ⟨⟨some q, mem⟩, q, rfl, by simp [q_reverse, hc], rfl, ?_, ?_, ?_, rfl,
        sameValues_refl _, fun _ _ => rfl⟩
      · simp [chain_nil_iff, hc]
      · simp [hc, htail]
      · simp [hc, htail]
    | cons a as =>
      have hc0 := hc
      rw [chain_cons_iff] at hc
      obtain ⟨hhead, e, he, hrest⟩ := hc
      cases as with
      | nil =>
        rw [chain_nil_iff] at hrest
        refine ⟨⟨some q, mem⟩, q, rfl, by simp [q_reverse, hhead, he, hrest], rfl, ?_, ?_, ?_,
          rfl, sameValues_refl _, fun _ _ => rfl⟩
        · simpa using hc0
        · simp [hhead, htail]
        · simp [hhead, htail]
      | cons b bs =>
        have hne : e.next ≠ none := by
          rw [chain_cons_iff] at hrest
          rw [hrest.1]; simp
        obtain ⟨h2, p2, hrun, hchain, hoff, hsame⟩ :=
          q_reverse_loop_spec (a :: b :: bs) mem q.head none [] fuel hc0
            (by simp [chain_nil_iff]) (by simp) hfuel
        rw [List.append_nil] at hchain
        refine ⟨⟨some ⟨p2, q.head, q.size⟩, h2⟩, ⟨p2, q.head, q.size⟩, rfl, ?_, rfl, hchain, ?_,
          rfl, rfl, hsame, hoff⟩
        · simp only [q_reverse, hhead, he, hne, if_false]
          rw [← hhead, hrun]
          rfl
        · rw [chain_ptr_eq hchain, htail, List.head?_reverse]


/-! ## Splitting -/

theorem split_loop_none (fuel : Nat) (h : Heap) (slow : Ptr) :
    split_loop fuel h slow none = some slow := by
  cases fuel <;> rfl

theorem split_loop_spec (h : Heap) : ∀ (F S : List Nat) (slow fast : Ptr) (fuel : Nat),
    chain h slow S → chain h fast F → F.length / 2 < S.length → F.length / 2 < fuel →
    ∃ s, split_loop fuel h slow fast = some (some s) ∧ chain h (some s) (S.drop (F.length / 2))
  | [], S, slow, fast, fuel, hS, hF, hlen, _ => by
    rw [chain_nil_iff] at hF
    subst hF
    cases S with
    | nil => simp at hlen
    | cons s0 S1 =>
      have hS0 := hS
      rw [chain_cons_iff] at hS
      obtain ⟨hslow, _⟩ := hS
      subst hslow
      exact ⟨s0, split_loop_none fuel h _, by simpa using hS0⟩
  | [f], S, slow, fast, fuel, hS, hF, hlen, hfuel => by
    rw [chain_cons_iff] at hF
    obtain ⟨hfast, fe, hfe, hnext⟩ := hF
    rw [chain_nil_iff] at hnext
    subst hfast
    cases S with
    | nil => exact absurd hlen (Nat.not_lt_zero _)
    | cons s0 S1 =>
      have hS0 := hS
      rw [chain_cons_iff] at hS
      obtain ⟨hslow, _⟩ := hS
      subst hslow
      obtain ⟨n, rfl⟩ : ∃ n, fuel = n + 1 := ⟨fuel - 1, by omega⟩
      refine ⟨s0, ?_, by simpa using hS0⟩
      simp [split_loop, hfe, hnext]
  | f :: g :: F1, S, slow, fast, fuel, hS, hF, hlen, hfuel => by
    rw [chain_cons_iff] at hF
    obtain ⟨hfast, fe, hfe, hF⟩ := hF
    rw [chain_cons_iff] at hF
    obtain ⟨hfnext, ge, hge, hF⟩ := hF
    subst hfast
    have hl2 : (f :: g :: F1).length / 2 = F1.length / 2 + 1 := by
      simp only [List.length_cons]; omega
    rw [hl2] at hlen hfuel ⊢
    cases S with
    | nil => simp at hlen
    | cons s0 S1 =>
      rw [chain_cons_iff] at hS
      obtain ⟨hslow, se, hse, hS⟩ := hS
      subst hslow
      obtain ⟨n, rfl⟩ : ∃ n, fuel = n + 1 := ⟨fuel - 1, by omega⟩
      obtain ⟨s, hrun, hch⟩ := split_loop_spec h F1 S1 se.next ge.next n hS hF
        (by simp at hlen; omega) (by omega)
      refine ⟨s, ?_, by simpa using hch⟩
      simp [split_loop, hfe, hfnext, load, hse, hge, hrun]

theorem split_spec (h : Heap) (a : Nat) (xs : List Nat) (fuel : Nat)
    (hc : chain h (some a) (a :: xs)) (hfuel : xs.length / 2 < fuel) :
    ∃ h2 back, split fuel h (some a) = some (h2, some a, back) ∧
      chain h2 (some a) ((a :: xs).take (xs.length / 2 + 1)) ∧
      chain h2 back ((a :: xs).drop (xs.length / 2 + 1)) ∧
      unchangedOff (a :: xs) h h2 ∧ sameValues h h2 := by
  have hnd := chain_nodup hc
  have hc0 := hc
  rw [chain_cons_iff] at hc
  obtain ⟨_, e, he, hrest⟩ := hc
  obtain ⟨s, hrun, hs⟩ := split_loop_spec h xs (a :: xs) (some a) e.next fuel hc0 hrest
    (by simp; omega) hfuel
  have hj : xs.length / 2 < (a :: xs).length := by simp; omega
  have hdrop : (a :: xs).drop (xs.length / 2) =
      (a :: xs)[xs.length / 2] :: (a :: xs).drop (xs.length / 2 + 1) :=
    List.drop_eq_getElem_cons hj
  rw [hdrop, chain_cons_iff] at hs
  obtain ⟨hsa, se, hse, hback⟩ := hs
  have hsa : (a :: xs)[xs.length / 2] = s := (Option.some.inj hsa).symm
  rw [hsa] at hdrop hse
  have hs_back : s ∉ (a :: xs).drop (xs.length / 2 + 1) := chain_head_not_mem hse hback
  have hdecomp : a :: xs = (a :: xs).take (xs.length / 2) ++ s :: (a :: xs).drop (xs.length / 2 + 1) := by
    rw [← hdrop, List.take_append_drop]
  have hs_front : s ∉ (a :: xs).take (xs.length / 2) := by
    rw [hdecomp] at hnd
    intro hmem
    exact (List.nodup_append.mp hnd).2.2 hmem (List.mem_cons_self _ _)
  have htake : (a :: xs).take (xs.length / 2 + 1) = (a :: xs).take (xs.length / 2) ++ [s] := by
    rw [List.take_succ, List.getElem?_eq_getElem hj, hsa]; rfl
  refine ⟨Function.update h s (some ⟨se.value, none⟩), se.next, ?_, ?_, ?_, ?_, ?_⟩
  · simp [split, load, he, hrun, hse]
  · have hseg : lseg h (some a) ((a :: xs).take (xs.length / 2)) (some s) := by
      have hc1 : lseg h (some a)
          ((a :: xs).take (xs.length / 2) ++ s :: (a :: xs).drop (xs.length / 2 + 1)) none := by
        rw [← hdecomp]; exact hc0
      rw [lseg_append_iff] at hc1
      obtain ⟨m, h1, h2⟩ := hc1
      rw [lseg_cons_iff] at h2
      rw [h2.1] at h1
      exact h1
    rw [htake]
    unfold chain
    rw [lseg_append_iff]
    refine ⟨some s, lseg_congr (update_of_mem hs_front) hseg, ?_⟩
    rw [lseg_cons_iff]
    exact ⟨rfl, ⟨se.value, none⟩, by simp, by simp [lseg_nil_iff]⟩
  · exact chain_congr (update_of_mem hs_back) hback
  · intro b hb
    have hbs : b ≠ s := by
      rintro rfl
      apply hb
      rw [hdecomp]
      simp
    exact Function.update_noteq hbs _ _
  · exact sameValues_update_next hse none


/-! ## Merging -/

theorem merge_loop_exit (n : Nat) (s : MergeState) (hex : s.l = none ∨ s.r = none) :
    merge_loop n s = some s := by
  cases n <;> cases hl : s.l <;> cases hr : s.r <;> simp_all [merge_loop]

theorem store_indirect_spec (s : MergeState) (p : Ptr)
    (hind : ∀ a, s.indirect = some a → ∃ e, s.mem a = some e) :
    ∃ s1, store_indirect s p = some s1 ∧ s1.indirect = s.indirect ∧ s1.l = s.l ∧ s1.r = s.r ∧
      sameValues s.mem s1.mem ∧ (∀ b, s.indirect ≠ some b → s1.mem b = s.mem b) ∧
      (s.indirect = none → s1.list = p) ∧ (s.indirect ≠ none → s1.list = s.list) ∧
      (∀ a, s.indirect = some a → ∃ e, s1.mem a = some e ∧ e.next = p) := by
  cases hi : s.indirect with
  | none =>
    refine ⟨⟨s.mem, p, s.indirect, s.l, s.r⟩, by simp [store_indirect, hi], hi, rfl, rfl,
      sameValues_refl _, fun _ _ => rfl, fun _ => rfl, fun hne => absurd rfl hne, ?_⟩
    intro a ha
    cases ha
  | some a =>
    obtain ⟨e, he⟩ := hind a hi
    refine ⟨⟨Function.update s.mem a (some ⟨e.value, p⟩), s.list, s.indirect, s.l, s.r⟩,
      by simp [store_indirect, hi, store_next, he], hi, rfl, rfl,
      sameValues_update_next he p, ?_, fun hn => Option.noConfusion hn, fun _ => rfl, ?_⟩
    · intro b hb
      exact Function.update_noteq (fun hba => hb (by rw [hba])) _ _
    · intro a2 ha2
      cases ha2
      exact ⟨⟨e.value, p⟩, by simp, rfl⟩

theorem placeHoldsChain_of_store {s s1 : MergeState} {p : Ptr} {zs : List Nat}
    (hmem : ∀ b, s.indirect ≠ some b → s1.mem b = s.mem b)
    (hlist : s.indirect = none → s1.list = p)
    (hnext : ∀ a, s.indirect = some a → ∃ e, s1.mem a = some e ∧ e.next = p)
    (hnot : ∀ a, s.indirect = some a → a ∉ zs)
    (hc : chain s.mem p zs) : placeHoldsChain s1.mem s1.list s.indirect zs := by
  have hc1 : chain s1.mem p zs := by
    refine chain_congr (fun b hb => hmem b ?_) hc
    intro hi
    exact hnot b hi hb
  cases hi : s.indirect with
  | none =>
    simp only [placeHoldsChain]
    rw [hlist hi]; exact hc1
  | some a =>
    simp only [placeHoldsChain]
    obtain ⟨e, he, hen⟩ := hnext a hi
    exact ⟨e, he, by rw [hen]; exact hc1⟩

theorem merge_exit_spec (v : Nat → List Nat) (n : Nat) (xs ys : List Nat) (s : MergeState)
    (hl : chain s.mem s.l xs) (hr : chain s.mem s.r ys)
    (hlist : s.indirect = none → s.list = none)
    (hind : ∀ a, s.indirect = some a →
      a ∉ xs ∧ a ∉ ys ∧ (∃ e, s.mem a = some e) ∧ (xs ≠ [] ∨ ys ≠ []))
    (hex : xs = [] ∨ ys = []) :
    ∃ s2 h2 p2, merge_loop n s = some s2 ∧ merge_finish s2 = some (h2, p2) ∧
      sameValues s.mem h2 ∧ (∀ b, b ∉ xs → b ∉ ys → s.indirect ≠ some b → h2 b = s.mem b) ∧
      (s.indirect ≠ none → p2 = s.list) ∧
      placeHoldsChain h2 p2 s.indirect (mergeAddrs v xs ys) := by
  have hloop : merge_loop n s = some s := by
    apply merge_loop_exit
    rcases hex with rfl | rfl
    · left; simpa [chain_nil_iff] using hl
    · right; simpa [chain_nil_iff] using hr
  have halloc : ∀ a, s.indirect = some a → ∃ e, s.mem a = some e := fun a ha => (hind a ha).2.2.1
  cases xs with
  | nil =>
    have hsl : s.l = none := by simpa [chain_nil_iff] using hl
    cases ys with
    | nil =>
      have hsr : s.r = none := by simpa [chain_nil_iff] using hr
      have hi : s.indirect = none := by
        cases hi : s.indirect with
        | none => rfl
        | some a => have := (hind a hi).2.2.2; simp at this
      refine ⟨s, s.mem, s.list, hloop, by simp [merge_finish, hsl, hsr], sameValues_refl _,
        fun _ _ _ _ => rfl, fun _ => rfl, ?_⟩
      rw [hi]
      simp [placeHoldsChain, mergeAddrs, hlist hi, chain_nil_iff]
    | cons y ys1 =>
      have hsr : s.r ≠ none := by
        rw [chain_cons_iff] at hr; rw [hr.1]; simp
      obtain ⟨s1, hst, _, _, _, hsame, hmem, hl1, hl2, hnext⟩ := store_indirect_spec s s.r halloc
      refine ⟨s, s1.mem, s1.list, hloop, by simp [merge_finish, hsl, hsr, hst], hsame,
        fun b _ _ hb => hmem b hb, hl2, ?_⟩
      have : mergeAddrs v [] (y :: ys1) = y :: ys1 := by simp [mergeAddrs]
      rw [this]
      exact placeHoldsChain_of_store hmem hl1 hnext (fun a ha => (hind a ha).2.1) hr
  | cons x xs1 =>
    have hys : ys = [] := by simpa using hex
    subst hys
    have hsr : s.r = none := by simpa [chain_nil_iff] using hr
    have hsl : s.l ≠ none := by
      rw [chain_cons_iff] at hl; rw [hl.1]; simp
    obtain ⟨s1, hst, _, _, hr1, hsame, hmem, hl1, hl2, hnext⟩ := store_indirect_spec s s.l halloc
    refine ⟨s, s1.mem, s1.list, hloop, ?_, hsame, fun b _ _ hb => hmem b hb, hl2, ?_⟩
    · simp [merge_finish, hsl, hst, hr1, hsr]
    · have : mergeAddrs v (x :: xs1) [] = x :: xs1 := by simp [mergeAddrs]
      rw [this]
      exact placeHoldsChain_of_store hmem hl1 hnext (fun a ha => (hind a ha).1) hl


theorem placeHoldsChain_step {s s1 : MergeState} {h2 : Heap} {p2 : Ptr} {z : Nat}
    {zs : List Nat}
    (hl1 : s.indirect = none → s1.list = some z)
    (hnext : ∀ a, s.indirect = some a → ∃ e, s1.mem a = some e ∧ e.next = some z)
    (hp2 : p2 = s1.list)
    (hkeep : ∀ a, s.indirect = some a → h2 a = s1.mem a)
    (hch : placeHoldsChain h2 p2 (some z) zs) :
    placeHoldsChain h2 p2 s.indirect (z :: zs) := by
  simp only [placeHoldsChain] at hch
  have hz : chain h2 (some z) (z :: zs) := by
    rw [chain_cons_iff]; exact ⟨rfl, hch⟩
  cases hi : s.indirect with
  | none =>
    simp only [placeHoldsChain]
    rw [hp2, hl1 hi]; exact hz
  | some a =>
    simp only [placeHoldsChain]
    obtain ⟨e, he, hen⟩ := hnext a hi
    exact ⟨e, by rw [hkeep a hi]; exact he, by rw [hen]; exact hz⟩

theorem merge_loop_spec (v : Nat → List Nat) : ∀ (n : Nat) (xs ys : List Nat) (s : MergeState),
    valueAt s.mem = v → chain s.mem s.l xs → chain s.mem s.r ys → (∀ a ∈ xs, a ∉ ys) →
    (s.indirect = none → s.list = none) →
    (∀ a, s.indirect = some a →
      a ∉ xs ∧ a ∉ ys ∧ (∃ e, s.mem a = some e) ∧ (xs ≠ [] ∨ ys ≠ [])) →
    xs.length + ys.length ≤ n →
    ∃ s2 h2 p2, merge_loop n s = some s2 ∧ merge_finish s2 = some (h2, p2) ∧
      sameValues s.mem h2 ∧ (∀ b, b ∉ xs → b ∉ ys → s.indirect ≠ some b → h2 b = s.mem b) ∧
      (s.indirect ≠ none → p2 = s.list) ∧
      placeHoldsChain h2 p2 s.indirect (mergeAddrs v xs ys) := by
  intro n
  induction n with
  | zero =>
    intro xs ys s _ hl hr _ hlist hind hn
    have hxs : xs = [] := List.length_eq_zero.mp (by omega)
    exact merge_exit_spec v 0 xs ys s hl hr hlist hind (Or.inl hxs)
  | succ n ih =>
    intro xs ys s hv hl hr hd hlist hind hn
    cases xs with
    | nil => exact merge_exit_spec v _ _ ys s hl hr hlist hind (Or.inl rfl)
    | cons x xs1 =>
      cases ys with
      | nil => exact merge_exit_spec v _ _ _ s hl hr hlist hind (Or.inr rfl)
      | cons y ys1 =>
        have hndl := chain_nodup hl
        have hndr := chain_nodup hr
        have hl0 := hl
        have hr0 := hr
        rw [chain_cons_iff] at hl hr
        obtain ⟨hsl, ex, hex, hl⟩ := hl
        obtain ⟨hsr, ey, hey, hr⟩ := hr
        have hx_xs1 : x ∉ xs1 := (List.nodup_cons.mp hndl).1
        have hy_ys1 : y ∉ ys1 := (List.nodup_cons.mp hndr).1
        have hx_ys : x ∉ y :: ys1 := hd x (List.mem_cons_self _ _)
        have hy_xs : y ∉ x :: xs1 := fun hmem => hd y hmem (List.mem_cons_self _ _)
        have halloc : ∀ a, s.indirect = some a → ∃ e, s.mem a = some e :=
          fun a ha => (hind a ha).2.2.1
        have hvx : v x = ex.value := by rw [← hv]; simp [valueAt, hex]
        have hvy : v y = ey.value := by rw [← hv]; simp [valueAt, hey]
        have hnotx : ∀ b ∈ x :: xs1, s.indirect ≠ some b := fun b hb hi => (hind b hi).1 hb
        have hnoty : ∀ b ∈ y :: ys1, s.indirect ≠ some b := fun b hb hi => (hind b hi).2.1 hb
        by_cases hlt : strcmp ex.value ey.value < 0
        · obtain ⟨s1, hst, _, _, hr1, hsame, hmem, hl1, hl2, hnext⟩ :=
            store_indirect_spec s (some x) halloc
          have hs1x : s1.mem x = some ex := by
            rw [hmem x (hnotx x (List.mem_cons_self _ _))]; exact hex
          obtain ⟨s2, h2, p2, hrun, hfin, hsame2, hframe2, hp2, hch⟩ :=
            ih xs1 (y :: ys1) ⟨s1.mem, s1.list, some x, ex.next, s1.r⟩
              (by rw [← hv]; exact valueAt_eq_of_sameValues hsame)
              (chain_congr (fun b hb => hmem b (hnotx b (List.mem_cons_of_mem _ hb))) hl)
              (by rw [hr1]; exact chain_congr (fun b hb => hmem b (hnoty b hb)) hr0)
              (fun a ha => hd a (List.mem_cons_of_mem _ ha))
              (fun hi => Option.noConfusion hi)
              (fun a ha => by
                cases ha
                exact ⟨hx_xs1, hx_ys, ⟨ex, hs1x⟩, Or.inr (List.cons_ne_nil _ _)⟩)
              (by simp at hn ⊢; omega)
          have hmerge : mergeAddrs v (x :: xs1) (y :: ys1) = x :: mergeAddrs v xs1 (y :: ys1) := by
            simp [mergeAddrs, List.cons_merge_cons, takesLeft, hvx, hvy, hlt]
          refine ⟨s2, h2, p2, ?_, hfin, sameValues_trans hsame hsame2, ?_, ?_, ?_⟩
          · simp only [merge_loop, hsl, hsr, hex, hey, hlt, if_true, hst, hs1x]
            exact hrun
          · intro b hbx hby hbi
            rw [hframe2 b (fun hm => hbx (List.mem_cons_of_mem _ hm)) hby
              (fun hxb => hbx (by cases hxb; exact List.mem_cons_self _ _))]
            exact hmem b hbi
          · intro hne
            rw [hp2 (by simp)]
            exact hl2 hne
          · rw [hmerge]
            refine placeHoldsChain_step hl1 hnext (hp2 (by simp)) ?_ hch
            intro a ha
            have ha4 := hind a ha
            exact hframe2 a (fun hm => ha4.1 (List.mem_cons_of_mem _ hm)) ha4.2.1
              (fun hxa => ha4.1 (by cases hxa; exact List.mem_cons_self _ _))
        · obtain ⟨s1, hst, _, hl1s, _, hsame, hmem, hl1, hl2, hnext⟩ :=
            store_indirect_spec s (some y) halloc
          have hs1y : s1.mem y = some ey := by
            rw [hmem y (hnoty y (List.mem_cons_self _ _))]; exact hey
          obtain ⟨s2, h2, p2, hrun, hfin, hsame2, hframe2, hp2, hch⟩ :=
            ih (x :: xs1) ys1 ⟨s1.mem, s1.list, some y, s1.l, ey.next⟩
              (by rw [← hv]; exact valueAt_eq_of_sameValues hsame)
              (by rw [hl1s]; exact chain_congr (fun b hb => hmem b (hnotx b hb)) hl0)
              (chain_congr (fun b hb => hmem b (hnoty b (List.mem_cons_of_mem _ hb))) hr)
              (fun a ha hm => hd a ha (List.mem_cons_of_mem _ hm))
              (fun hi => Option.noConfusion hi)
              (fun a ha => by
                cases ha
                exact ⟨hy_xs, hy_ys1, ⟨ey, hs1y⟩, Or.inl (List.cons_ne_nil _ _)⟩)
              (by simp at hn ⊢; omega)
          have hmerge : mergeAddrs v (x :: xs1) (y :: ys1) = y :: mergeAddrs v (x :: xs1) ys1 := by
            simp [mergeAddrs, List.cons_merge_cons, takesLeft, hvx, hvy, hlt]
          refine ⟨s2, h2, p2, ?_, hfin, sameValues_trans hsame hsame2, ?_, ?_, ?_⟩
          · simp only [merge_loop, hsl, hsr, hex, hey, hlt, if_false, hst, hs1y]
            exact hrun
          · intro b hbx hby hbi
            rw [hframe2 b hbx (fun hm => hby (List.mem_cons_of_mem _ hm))
              (fun hyb => hby (by cases hyb; exact List.mem_cons_self _ _))]
            exact hmem b hbi
          · intro hne
            rw [hp2 (by simp)]
            exact hl2 hne
          · rw [hmerge]
            refine placeHoldsChain_step hl1 hnext (hp2 (by simp)) ?_ hch
            intro a ha
            have ha4 := hind a ha
            exact hframe2 a ha4.1 (fun hm => ha4.2.1 (List.mem_cons_of_mem _ hm))
              (fun hya => ha4.2.1 (by cases hya; exact List.mem_cons_self _ _))

theorem merge_list_spec (h : Heap) (l r : Ptr) (xs ys : List Nat) (fuel : Nat)
    (hl : chain h l xs) (hr : chain h r ys) (hd : ∀ a ∈ xs, a ∉ ys)
    (hfuel : xs.length + ys.length ≤ fuel) :
    ∃ h2 p2, merge_list fuel h l r = some (h2, p2) ∧
      chain h2 p2 (mergeAddrs (valueAt h) xs ys) ∧ sameValues h h2 ∧
      (∀ b, b ∉ xs → b ∉ ys → h2 b = h b) := by
  obtain ⟨s2, h2, p2, hrun, hfin, hsame, hframe, _, hch⟩ :=
    merge_loop_spec (valueAt h) fuel xs ys ⟨h, none, none, l, r⟩ rfl hl hr hd (fun _ => rfl)
      (fun a ha => Option.noConfusion ha) hfuel
  refine ⟨h2, p2, by simp [merge_list, hrun, hfin], hch, hsame, ?_⟩
  intro b hbx hby
  exact hframe b hbx hby (fun hi => Option.noConfusion hi)


/-! ## Order decided by `strcmp` -/

theorem strcmp_swap : ∀ (a b : List Nat), strcmp b a = - strcmp a b
  | [], [] => by simp [strcmp]
  | [], _ :: _ => by simp [strcmp]
  | _ :: _, [] => by simp [strcmp]
  | x :: xs, y :: ys => by
    have ih := strcmp_swap xs ys
    simp only [strcmp]
    split_ifs <;> omega

theorem strcmp_eq_zero : ∀ (a b : List Nat), strcmp a b = 0 → a = b
  | [], [] => fun _ => rfl
  | [], _ :: _ => by simp [strcmp]
  | _ :: _, [] => by simp [strcmp]
  | x :: xs, y :: ys => by
    simp only [strcmp]
    split_ifs with h1 h2
    · simp
    · simp
    · intro h
      have : x = y := by omega
      rw [this, strcmp_eq_zero xs ys h]

theorem strcmp_self : ∀ (a : List Nat), strcmp a a = 0
  | [] => rfl
  | x :: xs => by simp [strcmp, strcmp_self xs]

theorem strcmp_range : ∀ (a b : List Nat), strcmp a b = -1 ∨ strcmp a b = 0 ∨ strcmp a b = 1
  | [], [] => by simp [strcmp]
  | [], _ :: _ => by simp [strcmp]
  | _ :: _, [] => by simp [strcmp]
  | x :: xs, y :: ys => by
    simp only [strcmp]
    split_ifs
    · simp
    · simp
    · exact strcmp_range xs ys

theorem strLe_trans : ∀ (a b c : List Nat), strLe a b → strLe b c → strLe a c
  | [], [], _ => fun _ h => h
  | [], _ :: _, [] => by simp [strLe, strcmp]
  | [], _ :: _, _ :: _ => by simp [strLe, strcmp]
  | _ :: _, [], _ => by simp [strLe, strcmp]
  | _ :: _, _ :: _, [] => by simp [strLe, strcmp]
  | x :: xs, y :: ys, z :: zs => by
    have ih := strLe_trans xs ys zs
    unfold strLe at ih ⊢
    simp only [strcmp]
    split_ifs <;> intro h1 h2 <;> omega

theorem strLe_total (a b : List Nat) : strLe a b ∨ strLe b a := by
  unfold strLe
  rw [strcmp_swap a b]
  omega

theorem strLe_antisymm (a b : List Nat) (h1 : strLe a b) (h2 : strLe b a) : a = b := by
  unfold strLe at h1 h2
  rw [strcmp_swap a b] at h2
  exact strcmp_eq_zero a b (by omega)

theorem strLe_of_not_lt (a b : List Nat) (h : ¬ strcmp a b < 0) : strLe b a := by
  unfold strLe
  rw [strcmp_swap a b]
  omega

instance strLe_isTrans : IsTrans (List Nat) strLe := ⟨strLe_trans⟩

instance strLe_isTotal : IsTotal (List Nat) strLe := ⟨strLe_total⟩

instance strLe_isAntisymm : IsAntisymm (List Nat) strLe := ⟨strLe_antisymm⟩


/-! ## Sorting -/

theorem sortAddrs_small (v : Nat → List Nat) (xs : List Nat) (h : xs.length < 2) :
    sortAddrs v xs = xs := by
  rw [sortAddrs]; simp [h]

theorem sortAddrs_large (v : Nat → List Nat) (xs : List Nat) (h : 2 ≤ xs.length) :
    sortAddrs v xs = mergeAddrs v (sortAddrs v (xs.take ((xs.length + 1) / 2)))
      (sortAddrs v (xs.drop ((xs.length + 1) / 2))) := by
  rw [sortAddrs]; simp [Nat.not_lt.mpr h]

theorem mergeAddrs_perm (v : Nat → List Nat) (xs ys : List Nat) :
    (mergeAddrs v xs ys).Perm (xs ++ ys) :=
  List.merge_perm_append (takesLeft v)

theorem sortAddrs_perm (v : Nat → List Nat) : ∀ (n : Nat) (xs : List Nat), xs.length ≤ n →
    (sortAddrs v xs).Perm xs := by
  intro n
  induction n with
  | zero =>
    intro xs hn
    rw [sortAddrs_small v xs (by omega)]
  | succ n ih =>
    intro xs hn
    by_cases hsmall : xs.length < 2
    · rw [sortAddrs_small v xs hsmall]
    · rw [sortAddrs_large v xs (by omega)]
      refine (mergeAddrs_perm v _ _).trans ?_
      have h1 := ih (xs.take ((xs.length + 1) / 2)) (by simp; omega)
      have h2 := ih (xs.drop ((xs.length + 1) / 2)) (by simp; omega)
      have := h1.append h2
      rwa [List.take_append_drop] at this

theorem mergeAddrs_sorted (v : Nat → List Nat) : ∀ (xs ys : List Nat),
    List.Sorted (fun a b => strLe (v a) (v b)) xs →
    List.Sorted (fun a b => strLe (v a) (v b)) ys →
    List.Sorted (fun a b => strLe (v a) (v b)) (mergeAddrs v xs ys)
  | [], ys, _, hy => by simpa [mergeAddrs] using hy
  | x :: xs, [], hx, _ => by simpa [mergeAddrs] using hx
  | x :: xs, y :: ys, hx, hy => by
    have hx2 := List.sorted_cons.mp hx
    have hy2 := List.sorted_cons.mp hy
    by_cases hlt : strcmp (v x) (v y) < 0
    · have hm : mergeAddrs v (x :: xs) (y :: ys) = x :: mergeAddrs v xs (y :: ys) := by
        simp [mergeAddrs, List.cons_merge_cons, takesLeft, hlt]
      rw [hm]
      refine List.sorted_cons.mpr ⟨?_, mergeAddrs_sorted v xs (y :: ys) hx2.2 hy⟩
      intro b hb
      have hxy : strLe (v x) (v y) := by unfold strLe; omega
      rcases List.mem_append.mp ((mergeAddrs_perm v xs (y :: ys)).subset hb) with hb | hb
      · exact hx2.1 b hb
      · rcases List.mem_cons.mp hb with rfl | hb
        · exact hxy
        · exact strLe_trans _ _ _ hxy (hy2.1 b hb)
    · have hm : mergeAddrs v (x :: xs) (y :: ys) = y :: mergeAddrs v (x :: xs) ys := by
        simp [mergeAddrs, List.cons_merge_cons, takesLeft, hlt]
      rw [hm]
      refine List.sorted_cons.mpr ⟨?_, mergeAddrs_sorted v (x :: xs) ys hx hy2.2⟩
      intro b hb
      have hyx : strLe (v y) (v x) := strLe_of_not_lt _ _ hlt
      rcases List.mem_append.mp ((mergeAddrs_perm v (x :: xs) ys).subset hb) with hb | hb
      · rcases List.mem_cons.mp hb with rfl | hb
        · exact hyx
        · exact strLe_trans _ _ _ hyx (hx2.1 b hb)
      · exact hy2.1 b hb
termination_by xs ys => xs.length + ys.length

theorem sortAddrs_sorted (v : Nat → List Nat) : ∀ (n : Nat) (xs : List Nat), xs.length ≤ n →
    List.Sorted (fun a b => strLe (v a) (v b)) (sortAddrs v xs) := by
  intro n
  induction n with
  | zero =>
    intro xs hn
    have : xs = [] := List.length_eq_zero.mp (by omega)
    subst this
    rw [sortAddrs_small v [] (by simp)]
    exact List.sorted_nil
  | succ n ih =>
    intro xs hn
    by_cases hsmall : xs.length < 2
    · rw [sortAddrs_small v xs hsmall]
      match xs, hsmall with
      | [], _ => exact List.sorted_nil
      | [a], _ => exact List.sorted_singleton a
      | _ :: _ :: _, h => exact absurd h (by simp)
    · rw [sortAddrs_large v xs (by omega)]
      exact mergeAddrs_sorted v _ _ (ih _ (by simp; omega)) (ih _ (by simp; omega))

theorem merge_sort_spec : ∀ (n : Nat) (xs : List Nat) (h : Heap) (p : Ptr),
    chain h p xs → xs.length < n →
    ∃ h2 p2, merge_sort n h p = some (h2, p2) ∧ chain h2 p2 (sortAddrs (valueAt h) xs) ∧
      sameValues h h2 ∧ unchangedOff xs h h2 := by
  intro n
  induction n with
  | zero => intro xs h p _ hn; omega
  | succ n ih =>
    intro xs h p hc hn
    match xs, hc, hn with
    | [], hc, _ =>
      rw [chain_nil_iff] at hc
      subst hc
      exact ⟨h, none, rfl, by simp [sortAddrs_small, chain_nil_iff], sameValues_refl h,
        fun _ _ => rfl⟩
    | [a], hc, _ =>
      have hc0 := hc
      rw [chain_cons_iff] at hc
      obtain ⟨hp, e, he, hnext⟩ := hc
      rw [chain_nil_iff] at hnext
      subst hp
      refine ⟨h, some a, by simp [merge_sort, he, hnext], ?_, sameValues_refl h, fun _ _ => rfl⟩
      rw [sortAddrs_small _ _ (by simp)]
      exact hc0
    | a :: b :: xs2, hc, hn =>
      have hnd := chain_nodup hc
      have hc0 := hc
      rw [chain_cons_iff] at hc
      obtain ⟨hp, e, he, hnext⟩ := hc
      subst hp
      have hne : e.next ≠ none := by
        rw [chain_cons_iff] at hnext; rw [hnext.1]; simp
      have hk : ((a :: b :: xs2).length + 1) / 2 = (b :: xs2).length / 2 + 1 := by
        simp only [List.length_cons]; omega
      simp only [List.length_cons] at hn
      obtain ⟨h1, back, hsplit, hfront, hback, hoff1, hsame1⟩ :=
        split_spec h a (b :: xs2) (n + 1) hc0 (by simp only [List.length_cons]; omega)
      rw [← hk] at hfront hback
      generalize hkdef : ((a :: b :: xs2).length + 1) / 2 = k at hfront hback hk
      have hklt : k < (a :: b :: xs2).length := by
        rw [← hkdef]; simp only [List.length_cons]; omega
      have hkpos : 0 < k := by omega
      have hdisj : ∀ c ∈ (a :: b :: xs2).take k, c ∉ (a :: b :: xs2).drop k := by
        have := hnd
        rw [← List.take_append_drop k (a :: b :: xs2)] at this
        intro c hc1 hc2
        exact (List.nodup_append.mp this).2.2 hc1 hc2
      obtain ⟨h2, left2, hms1, hch2, hsame2, hoff2⟩ :=
        ih ((a :: b :: xs2).take k) h1 (some a) hfront
          (by simp only [List.length_take, List.length_cons] at hklt ⊢; omega)
      have hback2 : chain h2 back ((a :: b :: xs2).drop k) :=
        chain_congr (fun c hc1 => hoff2 c (fun hc2 => hdisj c hc2 hc1)) hback
      obtain ⟨h3, right2, hms2, hch3, hsame3, hoff3⟩ :=
        ih ((a :: b :: xs2).drop k) h2 back hback2
          (by simp only [List.length_drop, List.length_cons] at hklt ⊢; omega)
      have hv1 : valueAt h1 = valueAt h := valueAt_eq_of_sameValues hsame1
      have hv2 : valueAt h2 = valueAt h := by
        rw [valueAt_eq_of_sameValues hsame2]; exact hv1
      have hv3 : valueAt h3 = valueAt h := by
        rw [valueAt_eq_of_sameValues hsame3]; exact hv2
      rw [hv1] at hch2
      rw [hv2] at hch3
      have hpermL := sortAddrs_perm (valueAt h) _ ((a :: b :: xs2).take k) le_rfl
      have hpermR := sortAddrs_perm (valueAt h) _ ((a :: b :: xs2).drop k) le_rfl
      have hleft3 : chain h3 left2 (sortAddrs (valueAt h) ((a :: b :: xs2).take k)) :=
        chain_congr (fun c hc1 => hoff3 c (hdisj c (hpermL.subset hc1))) hch2
      obtain ⟨h4, p4, hml, hch4, hsame4, hoff4⟩ :=
        merge_list_spec h3 left2 right2 _ _ (n + 1) hleft3 hch3
          (fun c hc1 hc2 => hdisj c (hpermL.subset hc1) (hpermR.subset hc2))
          (by
            rw [hpermL.length_eq, hpermR.length_eq]
            simp only [List.length_take, List.length_drop, List.length_cons]
            omega)
      rw [hv3] at hch4
      refine ⟨h4, p4, ?_, ?_, ?_, ?_⟩
      · simp only [merge_sort, he, hne, if_false, hsplit, hms1, hms2]
        exact hml
      · rw [sortAddrs_large _ _ (by simp), hkdef]
        exact hch4
      · exact sameValues_trans hsame1 (sameValues_trans hsame2 (sameValues_trans hsame3 hsame4))
      · intro c hc1
        have hcL : c ∉ (a :: b :: xs2).take k := fun hm => hc1 (List.mem_of_mem_take hm)
        have hcR : c ∉ (a :: b :: xs2).drop k := fun hm => hc1 (List.mem_of_mem_drop hm)
        rw [hoff4 c (fun hm => hcL (hpermL.subset hm)) (fun hm => hcR (hpermR.subset hm)),
          hoff3 c hcR, hoff2 c hcL, hoff1 c hc1]


theorem q_sort_walk_spec (h : Heap) : ∀ (xs : List Nat) (p : Ptr) (fuel : Nat),
    chain h p xs → xs.length ≤ fuel → q_sort_walk fuel h p = some none
  | [], p, fuel, hc, _ => by
    rw [chain_nil_iff] at hc
    subst hc
    cases fuel <;> rfl
  | a :: as, p, fuel, hc, hfuel => by
    rw [chain_cons_iff] at hc
    obtain ⟨hp, e, he, hrest⟩ := hc
    subst hp
    obtain ⟨n, rfl⟩ : ∃ n, fuel = n + 1 := ⟨fuel - 1, by simp at hfuel; omega⟩
    simp only [q_sort_walk, he]
    exact q_sort_walk_spec h as e.next n hrest (by simp at hfuel; omega)

/-- What `q_sort` does to a queue whose chain from `head` is `xs`. -/
theorem q_sort_spec (st : Store) (q : queue_t) (xs : List Nat) (fuel : Nat)
    (hq : st.q = some q) (hc : chain st.mem q.head xs) (hfuel : xs.length < fuel) :
    ∃ st2, q_sort fuel st = some st2 ∧
      ((xs = [] ∧ st2 = st) ∨
        (xs ≠ [] ∧ ∃ p2, st2.q = some ⟨p2, none, q.size⟩ ∧
          chain st2.mem p2 (sortAddrs (valueAt st.mem) xs))) ∧
      sameValues st.mem st2.mem ∧ unchangedOff xs st.mem st2.mem := by
  obtain ⟨sq, mem⟩ := st
  simp only at hq hc
  subst hq
  cases xs with
  | nil =>
    rw [chain_nil_iff] at hc
    exact ⟨⟨some q, mem⟩, by simp [q_sort, hc], Or.inl ⟨rfl, rfl⟩, sameValues_refl _,
      fun _ _ => rfl⟩
  | cons a as =>
    obtain ⟨h2, p2, hms, hch, hsame, hoff⟩ := merge_sort_spec fuel (a :: as) mem q.head hc hfuel
    have hwalk := q_sort_walk_spec h2 _ p2 fuel hch
      (by rw [(sortAddrs_perm _ _ _ le_rfl).length_eq]; omega)
    have hhead : q.head = some a := by rw [chain_cons_iff] at hc; exact hc.1
    refine ⟨⟨some ⟨p2, none, q.size⟩, h2⟩, ?_, Or.inr ⟨by simp, p2, rfl, hch⟩, hsame, hoff⟩
    simp only [q_sort]
    rw [hhead] at hms ⊢
    simp only [hms, hwalk]

theorem sorted_values_of_sorted (h : Heap) (zs : List Nat)
    (hs : List.Sorted (fun a b => strLe (valueAt h a) (valueAt h b)) zs) :
    List.Sorted strLe (values h zs) := by
  unfold values List.Sorted
  rw [List.pairwise_map]
  exact hs

theorem size_pred (n : Nat) (h1 : 1 ≤ n) (h2 : n < SIZE_MOD) :
    (n + SIZE_MOD - 1) % SIZE_MOD = n - 1 := by
  unfold SIZE_MOD at *
  omega

theorem strncpy_zero (dst src : List Nat) : strncpy dst src 0 = some dst := by
  cases dst <;> cases src <;> rfl

theorem strncpy_spec : ∀ (n : Nat) (dst src : List Nat), n ≤ dst.length →
    strncpy dst src n = some (src.take n ++ List.replicate (n - src.length) 0 ++ dst.drop n)
  | 0, dst, src, _ => by simp [strncpy_zero]
  | n + 1, [], _, h => by simp at h
  | n + 1, d :: dst, [], h => by
    have ih := strncpy_spec n dst [] (by simpa using h)
    simp only [strncpy, ih]
    simp [List.replicate_succ]
  | n + 1, d :: dst, c :: src, h => by
    have ih := strncpy_spec n dst src (by simpa using h)
    simp only [strncpy, ih]
    simp

theorem cstr_append_zero (A R : List Nat) (hA : 0 ∉ A) : cstr (A ++ 0 :: R) = A := by
  unfold cstr
  induction A with
  | nil => simp
  | cons a A ih =>
    have ha : a ≠ 0 := fun h => hA (by simp [h])
    have hA2 : 0 ∉ A := fun h => hA (List.mem_cons_of_mem _ h)
    rw [List.cons_append, List.takeWhile_cons]
    simp only [ne_eq, ha, not_false_eq_true, decide_True, if_true]
    rw [ih hA2]

theorem remove_copy_spec (buf v : List Nat) (n : Nat) (hn : n < buf.length) (hv : 0 ∉ v) :
    ∃ b, (strncpy buf v n).bind (fun b => store_byte b n 0) = some b ∧
      b.length = buf.length ∧ cstr b = v.take n ∧ b[n]? = some 0 ∧
      b.drop (n + 1) = buf.drop (n + 1) := by
  rw [strncpy_spec n buf v (le_of_lt hn)]
  have hlenP : (v.take n ++ List.replicate (n - v.length) 0).length = n := by
    simp; omega
  generalize hP : v.take n ++ List.replicate (n - v.length) 0 = P at hlenP
  have hdrop : buf.drop n = buf[n] :: buf.drop (n + 1) := List.drop_eq_getElem_cons hn
  have hset : (P ++ buf.drop n).set n 0 = P ++ 0 :: buf.drop (n + 1) := by
    rw [List.set_append, if_neg (by omega), hlenP, hdrop]
    simp only [Nat.sub_self, List.set_cons_zero]
  refine ⟨P ++ 0 :: buf.drop (n + 1), ?_, ?_, ?_, ?_, ?_⟩
  · simp only [Option.some_bind, store_byte]
    rw [if_pos (by simp [hlenP]; omega), hset]
  · simp [hlenP]; omega
  · rw [← hP, List.append_assoc]
    have : ∃ R, List.replicate (n - v.length) 0 ++ 0 :: buf.drop (n + 1) = 0 :: R := by
      cases n - v.length with
      | zero => exact ⟨_, rfl⟩
      | succ k => exact ⟨List.replicate k 0 ++ 0 :: buf.drop (n + 1), by simp [List.replicate_succ]⟩
    obtain ⟨R, hR⟩ := this
    rw [hR]
    exact cstr_append_zero _ _ (fun hm => hv (List.mem_of_mem_take hm))
  · rw [List.getElem?_append_right (by omega), hlenP]
    simp
  · rw [List.drop_append_eq_append_drop, hlenP]
    simp [List.drop_eq_nil_of_le (by omega : P.length ≤ n + 1)]


/-! ## The queue operations -/

/-- C1 (the code departs from it): the queue invariant does not hold in
every state reached from `q_new`. After two insertions `q_sort` leaves
`tail` at `NULL` although `head` is not, and after an insertion
`q_remove_head` leaves `tail` at the freed element although `head` is
`NULL`; neither state satisfies the invariant. -/
theorem invariant_fails_in_reachable_states :
    (∃ r, run fresh [Op.insert_head [97] (some 1) true, Op.insert_head [98] (some 2) true,
        Op.sort 3] = some r ∧ r.2.q = some ⟨some 1, none, 2⟩ ∧ ¬ invariant r.2) ∧
    (∃ r, run fresh [Op.insert_head [97] (some 1) true, Op.remove_head none 0] = some r ∧
        r.2.q = some ⟨none, some 1, 0⟩ ∧ ¬ invariant r.2) := by
  refine ⟨⟨_, rfl, by decide, ?_⟩, ⟨_, rfl, by decide, ?_⟩⟩
  · intro hinv
    change (_ ∧ ((some 1 : Ptr) = none ↔ (none : Ptr) = none) ∧ _) at hinv
    exact absurd (hinv.2.1.mpr rfl) (by simp)
  · intro hinv
    change (_ ∧ ((none : Ptr) = none ↔ (some 1 : Ptr) = none) ∧ _) at hinv
    exact absurd (hinv.2.1.mp rfl) (by simp)

/-- C2: for a queue whose chain from `head` is the finite list `xs`, `q_sort`
returns (with fuel above the length), the chain from `head` is then a
permutation `ys` of `xs` over the same elements with the same values, nothing
else in the heap changes, and the values read from `head` are in ascending
`strcmp` order: they are the ascending sort of the values before the call. -/
theorem q_sort_sorts (st : Store) (q : queue_t) (xs : List Nat) (fuel : Nat)
    (hq : st.q = some q) (hc : chain st.mem q.head xs) (hfuel : xs.length < fuel) :
    ∃ st2 q2 ys, q_sort fuel st = some st2 ∧ st2.q = some q2 ∧ chain st2.mem q2.head ys ∧
      ys.Perm xs ∧ sameValues st.mem st2.mem ∧ unchangedOff xs st.mem st2.mem ∧
      List.Sorted strLe (values st2.mem ys) ∧ (values st2.mem ys).Perm (values st.mem xs) ∧
      values st2.mem ys = List.insertionSort strLe (values st.mem xs) := by
  obtain ⟨st2, hrun, hcase, hsame, hoff⟩ := q_sort_spec st q xs fuel hq hc hfuel
  have hv : valueAt st2.mem = valueAt st.mem := valueAt_eq_of_sameValues hsame
  have key : ∃ q2 ys, st2.q = some q2 ∧ chain st2.mem q2.head ys ∧ ys.Perm xs ∧
      List.Sorted (fun a b => strLe (valueAt st.mem a) (valueAt st.mem b)) ys := by
    rcases hcase with ⟨hnil, hst⟩ | ⟨_, p2, hq2, hch⟩
    · subst hnil hst
      exact ⟨q, [], hq, hc, List.Perm.refl _, List.sorted_nil⟩
    · exact ⟨_, _, hq2, hch, sortAddrs_perm _ _ _ le_rfl, sortAddrs_sorted _ _ _ le_rfl⟩
  obtain ⟨q2, ys, hq2, hch, hperm, hsorted⟩ := key
  have hsv : List.Sorted strLe (values st2.mem ys) := by
    apply sorted_values_of_sorted
    rw [hv]; exact hsorted
  have hpv : (values st2.mem ys).Perm (values st.mem xs) := by
    unfold values
    rw [hv]
    exact hperm.map _
  refine ⟨st2, q2, ys, hrun, hq2, hch, hperm, hsame, hoff, hsv, hpv, ?_⟩
  exact List.eq_of_perm_of_sorted (hpv.trans (List.perm_insertionSort strLe _).symm) hsv
    (List.sorted_insertionSort strLe _)

theorem q_sort_sorts_witness :
    bacStore.q = some ⟨some 1, some 3, 3⟩ ∧ chain bacStore.mem (some 1) [1, 2, 3] ∧
    ∃ st2 q2 ys, q_sort 4 bacStore = some st2 ∧ st2.q = some q2 ∧ chain st2.mem q2.head ys ∧
      ys.Perm [1, 2, 3] ∧ sameValues bacStore.mem st2.mem ∧
      unchangedOff [1, 2, 3] bacStore.mem st2.mem ∧
      List.Sorted strLe (values st2.mem ys) ∧
      (values st2.mem ys).Perm (values bacStore.mem [1, 2, 3]) ∧
      values st2.mem ys = List.insertionSort strLe (values bacStore.mem [1, 2, 3]) :=
  ⟨rfl, by decide, q_sort_sorts bacStore ⟨some 1, some 3, 3⟩ [1, 2, 3] 4 rfl (by decide)
    (by decide)⟩

/-- C3 (the code departs from it): after insert-tail of "b", "a", "c" the
queue is well formed with `tail` at the element holding "c"; `q_sort` then
leaves the chain "a", "b", "c" from `head`, but `tail` is `NULL`, not the
element holding "c". -/
theorem q_sort_tail_is_null :
    ∃ r, run fresh [Op.insert_tail [98] (some 1) true, Op.insert_tail [97] (some 2) true,
        Op.insert_tail [99] (some 3) true] = some r ∧ wellFormed r.2 [1, 2, 3] ∧
      r.2.q = some ⟨some 1, some 3, 3⟩ ∧
      ∃ st2, q_sort 4 r.2 = some st2 ∧ st2.q = some ⟨some 2, none, 3⟩ ∧
        chain st2.mem (some 2) [2, 1, 3] ∧ values st2.mem [2, 1, 3] = [[97], [98], [99]] :=
  ⟨_, rfl, by decide, by decide, _, rfl, by decide, by decide, by decide⟩

/-- C4 (the code departs from it): on a well-formed queue with exactly one
element `q_sort` is not a no-op: `tail`, which was the element, is `NULL`
after the call. -/
theorem q_sort_one_element_changes_tail :
    wellFormed bananaStore [1] ∧ bananaStore.q = some ⟨some 1, some 1, 1⟩ ∧
      ∃ st2, q_sort 2 bananaStore = some st2 ∧ st2.q = some ⟨some 1, none, 1⟩ :=
  ⟨by decide, rfl, _, rfl, by decide⟩

/-- C5 (the code departs from it): `q_remove_head` on a well-formed queue
with one element returns true, sets `head` to `NULL` and `size` to zero and
frees the element, but leaves `tail` at the freed element instead of
clearing it. -/
theorem q_remove_head_keeps_tail :
    wellFormed bananaStore [1] ∧
      ∃ r, q_remove_head bananaStore none 0 = some r ∧ r.ret = true ∧
        r.st.q = some ⟨none, some 1, 0⟩ ∧ r.st.mem 1 = none :=
  ⟨by decide, _, rfl, rfl, by decide, by decide⟩

/-- C6 (the code departs from it): on a queue emptied by `q_remove_head` a
successful `q_insert_tail` does not make the new element the head. When
`malloc` returns the address just freed, `head` stays `NULL` (and the new
element is linked to itself); when it returns another address, the call
writes through the stale `tail` into freed storage, which has no defined
result. -/
theorem q_insert_tail_after_emptying :
    (∃ r, run fresh [Op.insert_tail [97] (some 1) true, Op.remove_head none 0,
        Op.insert_tail [98] (some 1) true] = some r ∧
      r.1 = [some true, some true, some true] ∧ r.2.q = some ⟨none, some 1, 1⟩ ∧
      r.2.mem 1 = some ⟨[98], some 1⟩) ∧
    (run fresh [Op.insert_tail [97] (some 1) true, Op.remove_head none 0,
        Op.insert_tail [98] (some 2) true]).isNone = true :=
  ⟨⟨_, rfl, by decide, by decide, by decide⟩, by decide⟩

/-- C7 (the code departs from it): after a successful `q_insert_head`, a
successful `q_remove_head` and a successful `q_insert_tail` (two inserts
less one remove: one element), `q_size` returns 0, because `head` is
`NULL`. -/
theorem q_size_not_net_inserted :
    ∃ r, run fresh [Op.insert_head [97] (some 1) true, Op.remove_head none 0,
        Op.insert_tail [98] (some 1) true] = some r ∧
      netInserted [Op.insert_head [97] (some 1) true, Op.remove_head none 0,
        Op.insert_tail [98] (some 1) true] r.1 = 1 ∧ q_size r.2 = 0 :=
  ⟨_, rfl, by decide, by decide⟩

/-- C8: for a queue whose head element holds the value `v` (a C string: no
zero byte) and a buffer of capacity `bufsize` at least 1, `q_remove_head`
returns true and leaves in the buffer a terminated string, the first
`min (len v) (bufsize - 1)` bytes of `v`: the byte at `bufsize - 1` is zero,
the string is `v` itself when `v` is shorter than `bufsize`, and the bytes
past the capacity are untouched. -/
theorem q_remove_head_buffer (st : Store) (q : queue_t) (a : Nat) (e : list_ele_t)
    (buf : List Nat) (bufsize : Nat) (hq : st.q = some q) (hhead : q.head = some a)
    (he : st.mem a = some e) (hv : 0 ∉ e.value) (h1 : 1 ≤ bufsize)
    (hcap : bufsize ≤ buf.length) (hsz : bufsize < SIZE_MOD) :
    ∃ r b, q_remove_head st (some buf) bufsize = some r ∧ r.ret = true ∧ r.sp = some b ∧
      b.length = buf.length ∧
      cstr b = e.value.take (min e.value.length (bufsize - 1)) ∧
      b[bufsize - 1]? = some 0 ∧ (cstr b).length < bufsize ∧
      (e.value.length < bufsize → cstr b = e.value) ∧
      b.drop bufsize = buf.drop bufsize := by
  obtain ⟨b, hcopy, hlen, hstr, hzero, hdrop⟩ :=
    remove_copy_spec buf e.value (bufsize - 1) (by omega) hv
  have hb0 : bufsize ≠ 0 := by omega
  have hsucc : bufsize - 1 + 1 = bufsize := by omega
  rw [hsucc] at hdrop
  have htake : e.value.take (bufsize - 1) = e.value.take (min e.value.length (bufsize - 1)) := by
    rcases Nat.le_total e.value.length (bufsize - 1) with hle | hle
    · rw [Nat.min_eq_left hle, List.take_of_length_le hle, List.take_of_length_le le_rfl]
    · rw [Nat.min_eq_right hle]
  refine ⟨⟨true, ⟨some ⟨e.next, q.tail, (q.size + SIZE_MOD - 1) % SIZE_MOD⟩,
    Function.update st.mem a none⟩, some b⟩, b, ?_, rfl, rfl, hlen, ?_, hzero, ?_, ?_, hdrop⟩
  · simp only [q_remove_head, hq, hhead, he, hb0, if_false, size_pred bufsize h1 hsz, hcopy,
      Option.map_some', free]
  · rw [hstr, htake]
  · rw [hstr, List.length_take]
    omega
  · intro hshort
    rw [hstr, List.take_of_length_le (by omega)]

theorem q_remove_head_buffer_witness :
    ∃ r b, q_remove_head bananaStore (some [7, 7]) 2 = some r ∧ r.ret = true ∧ r.sp = some b ∧
      b.length = 2 ∧ cstr b = [98] ∧ b[1]? = some 0 := by
  obtain ⟨r, b, h1, h2, h3, h4, h5, h6, _⟩ :=
    q_remove_head_buffer bananaStore ⟨some 1, some 1, 1⟩ 1 ⟨[98, 97, 110, 97, 110, 97], none⟩
      [7, 7] 2 rfl rfl rfl (by decide) (by decide) (by decide) (by decide)
  exact ⟨r, b, h1, h2, h3, h4, h5, h6⟩


theorem q_reverse_wellFormed (st : Store) (xs : List Nat) (fuel : Nat)
    (hwf : wellFormed st xs) (hfuel : xs.length ≤ fuel) :
    ∃ q st2 q2, st.q = some q ∧ q_reverse fuel st = some st2 ∧ st2.q = some q2 ∧
      chain st.mem q.head xs ∧ wellFormed st2 xs.reverse ∧ q2.head = q.tail ∧
      q2.tail = q.head ∧ q2.size = q.size ∧ sameValues st.mem st2.mem ∧
      unchangedOff xs st.mem st2.mem := by
  obtain ⟨q, st2, q2, hq, hrun, hq2, hch, hhead, htail, hsize, hsame, hoff⟩ :=
    q_reverse_spec st xs fuel hwf hfuel
  have hwf0 := hwf
  simp only [wellFormed, hq] at hwf0
  obtain ⟨hc, _, hsz, hlt⟩ := hwf0
  refine ⟨q, st2, q2, hq, hrun, hq2, hc, ?_, hhead, htail, hsize, hsame, hoff⟩
  simp only [wellFormed, hq2]
  refine ⟨hch, ?_, ?_, ?_⟩
  · rw [htail, chain_ptr_eq hc, List.getLast?_reverse]
  · rw [hsize, hsz, List.length_reverse]
  · rw [hsize]; exact hlt

/-- C9: on a well-formed queue with contents `xs`, `q_reverse` returns (with
fuel at least the length) and leaves the chain `xs.reverse` from `head` over
the same elements with the same values: the former tail is the head, the
former head is the tail and its `next` is `NULL`, `size` is as before and
nothing outside `xs` changes; the result is again well formed. On an absent
queue and on one whose `head` is `NULL` it changes nothing. -/
theorem q_reverse_reverses (st : Store) (xs : List Nat) (fuel : Nat)
    (hwf : wellFormed st xs) (hfuel : xs.length ≤ fuel) :
    (∃ q st2 q2, st.q = some q ∧ q_reverse fuel st = some st2 ∧ st2.q = some q2 ∧
      chain st2.mem q2.head xs.reverse ∧ q2.head = q.tail ∧ q2.tail = q.head ∧
      (∀ t, q2.tail = some t → ∃ e, st2.mem t = some e ∧ e.next = none) ∧
      q2.size = q.size ∧ sameValues st.mem st2.mem ∧ unchangedOff xs st.mem st2.mem ∧
      wellFormed st2 xs.reverse) ∧
    (∀ (st0 : Store) (fuel0 : Nat), (st0.q = none ∨ ∃ q0, st0.q = some q0 ∧ q0.head = none) →
      q_reverse fuel0 st0 = some st0) := by
  constructor
  · obtain ⟨q, st2, q2, hq, hrun, hq2, _, hwf2, hhead, htail, hsize, hsame, hoff⟩ :=
      q_reverse_wellFormed st xs fuel hwf hfuel
    have hwf3 := hwf2
    simp only [wellFormed, hq2] at hwf3
    obtain ⟨hch, hlast, _, _⟩ := hwf3
    refine ⟨q, st2, q2, hq, hrun, hq2, hch, hhead, htail, ?_, hsize, hsame, hoff, hwf2⟩
    intro t ht
    exact chain_last_next hch t (by rw [← hlast]; exact ht)
  · rintro st0 fuel0 (h0 | ⟨q0, h0, hh⟩)
    · simp [q_reverse, h0]
    · simp [q_reverse, h0, hh]

theorem q_reverse_reverses_witness :
    wellFormed bacStore [1, 2, 3] ∧
    ∃ q st2 q2, bacStore.q = some q ∧ q_reverse 3 bacStore = some st2 ∧ st2.q = some q2 ∧
      chain st2.mem q2.head [3, 2, 1] ∧ q2.head = q.tail ∧ q2.tail = q.head ∧
      (∀ t, q2.tail = some t → ∃ e, st2.mem t = some e ∧ e.next = none) ∧
      q2.size = q.size ∧ sameValues bacStore.mem st2.mem ∧
      unchangedOff [1, 2, 3] bacStore.mem st2.mem ∧ wellFormed st2 [3, 2, 1] :=
  ⟨by decide, (q_reverse_reverses bacStore [1, 2, 3] 3 (by decide) (by decide)).1⟩

/-- C10: on a well-formed queue `q_reverse` applied twice returns both times
and gives back the state it started from: `head`, `tail`, `size`, and every
element with its `next`, so the order of the elements. -/
theorem q_reverse_involution (st : Store) (xs : List Nat) (fuel : Nat)
    (hwf : wellFormed st xs) (hfuel : xs.length ≤ fuel) :
    ∃ st1 st2, q_reverse fuel st = some st1 ∧ q_reverse fuel st1 = some st2 ∧
      st2.q = st.q ∧ st2.mem = st.mem ∧ wellFormed st2 xs ∧ st2 = st := by
  obtain ⟨q, st1, q1, hq, hrun1, hq1, hc, hwf1, hhead1, htail1, hsize1, hsame1, hoff1⟩ :=
    q_reverse_wellFormed st xs fuel hwf hfuel
  obtain ⟨q1b, st2, q2, hq1b, hrun2, hq2, _, hwf2, hhead2, htail2, hsize2, hsame2, hoff2⟩ :=
    q_reverse_wellFormed st1 xs.reverse fuel hwf1 (by rw [List.length_reverse]; exact hfuel)
  rw [hq1] at hq1b
  cases hq1b
  rw [List.reverse_reverse] at hwf2
  have hqeq : st2.q = st.q := by
    rw [hq2, hq]
    cases q2; cases q
    simp only [Option.some.injEq, queue_t.mk.injEq]
    exact ⟨hhead2.trans htail1, htail2.trans hhead1, hsize2.trans hsize1⟩
  have hc2 : chain st2.mem q.head xs := by
    have := hwf2
    simp only [wellFormed, hq2] at this
    have hh : q2.head = q.head := hhead2.trans htail1
    rw [← hh]; exact this.1
  have hmem : st2.mem = st.mem := by
    funext a
    by_cases ha : a ∈ xs
    · exact chain_determines hc hc2 (sameValues_trans hsame1 hsame2) a ha
    · rw [hoff2 a (by simpa using ha), hoff1 a ha]
  have hst : st2 = st := by
    cases st2; cases st
    simp only [Store.mk.injEq]
    exact ⟨hqeq, hmem⟩
  exact ⟨st1, st2, hrun1, hrun2, hqeq, hmem, hwf2, hst⟩

theorem q_reverse_involution_witness :
    wellFormed bacStore [1, 2, 3] ∧
    ∃ st1 st2, q_reverse 3 bacStore = some st1 ∧ q_reverse 3 st1 = some st2 ∧
      st2.q = bacStore.q ∧ st2.mem = bacStore.mem ∧ wellFormed st2 [1, 2, 3] ∧
      st2 = bacStore :=
  ⟨by decide, q_reverse_involution bacStore [1, 2, 3] 3 (by decide) (by decide)⟩


/-! ## Further properties of the operations -/

/-- The chain `q_sort` leaves from `head`, and the values on it. -/
theorem q_sort_head_values (st : Store) (q : queue_t) (xs : List Nat) (fuel : Nat)
    (hq : st.q = some q) (hc : chain st.mem q.head xs) (hfuel : xs.length < fuel) :
    ∃ st2 q2 ys, q_sort fuel st = some st2 ∧ st2.q = some q2 ∧ chain st2.mem q2.head ys ∧
      ys.Perm xs ∧ List.Sorted strLe (values st2.mem ys) ∧
      (values st2.mem ys).Perm (values st.mem xs) := by
  obtain ⟨st2, hrun, hcase, hsame, _⟩ := q_sort_spec st q xs fuel hq hc hfuel
  have hv : valueAt st2.mem = valueAt st.mem := valueAt_eq_of_sameValues hsame
  have key : ∃ q2 ys, st2.q = some q2 ∧ chain st2.mem q2.head ys ∧ ys.Perm xs ∧
      List.Sorted (fun a b => strLe (valueAt st.mem a) (valueAt st.mem b)) ys := by
    rcases hcase with ⟨hnil, hst⟩ | ⟨_, p2, hq2, hch⟩
    · subst hnil hst
      exact ⟨q, [], hq, hc, List.Perm.refl _, List.sorted_nil⟩
    · exact ⟨_, _, hq2, hch, sortAddrs_perm _ _ _ le_rfl, sortAddrs_sorted _ _ _ le_rfl⟩
  obtain ⟨q2, ys, hq2, hch, hperm, hsorted⟩ := key
  refine ⟨st2, q2, ys, hrun, hq2, hch, hperm, ?_, ?_⟩
  · apply sorted_values_of_sorted
    rw [hv]; exact hsorted
  · unfold values
    rw [hv]
    exact hperm.map _

/-- C11: for a queue whose chain from `head` is finite, `q_sort` returns when
applied once and when applied again to the result, and the values read from
`head` after the second call are those read after the first. -/
theorem q_sort_idempotent (st : Store) (q : queue_t) (xs : List Nat) (fuel : Nat)
    (hq : st.q = some q) (hc : chain st.mem q.head xs) (hfuel : xs.length < fuel) :
    ∃ st1 q1 ys st2 q2 zs, q_sort fuel st = some st1 ∧ st1.q = some q1 ∧
      chain st1.mem q1.head ys ∧ q_sort fuel st1 = some st2 ∧ st2.q = some q2 ∧
      chain st2.mem q2.head zs ∧ values st2.mem zs = values st1.mem ys := by
  obtain ⟨st1, q1, ys, hrun1, hq1, hch1, hperm1, hsorted1, _⟩ :=
    q_sort_head_values st q xs fuel hq hc hfuel
  obtain ⟨st2, q2, zs, hrun2, hq2, hch2, _, hsorted2, hpv2⟩ :=
    q_sort_head_values st1 q1 ys fuel hq1 hch1 (by rw [hperm1.length_eq]; exact hfuel)
  exact ⟨st1, q1, ys, st2, q2, zs, hrun1, hq1, hch1, hrun2, hq2, hch2,
    List.eq_of_perm_of_sorted hpv2 hsorted2 hsorted1⟩

theorem q_sort_idempotent_witness :
    chain bacStore.mem (some 1) [1, 2, 3] ∧
    ∃ st1 q1 ys st2 q2 zs, q_sort 4 bacStore = some st1 ∧ st1.q = some q1 ∧
      chain st1.mem q1.head ys ∧ q_sort 4 st1 = some st2 ∧ st2.q = some q2 ∧
      chain st2.mem q2.head zs ∧ values st2.mem zs = values st1.mem ys :=
  ⟨by decide, q_sort_idempotent bacStore ⟨some 1, some 3, 3⟩ [1, 2, 3] 4 rfl (by decide)
    (by decide)⟩


theorem q_insert_head_success (st : Store) (q : queue_t) (s : List Nat) (a : Nat)
    (hq : st.q = some q) :
    q_insert_head st s (some a) true =
      some (true, ⟨some ⟨some a, if q.tail = none then some a else q.tail,
        (q.size + 1) % SIZE_MOD⟩, Function.update st.mem a (some ⟨s, q.head⟩)⟩) := by
  simp [q_insert_head, hq]

theorem q_remove_head_success (st : Store) (q : queue_t) (a : Nat) (e : list_ele_t)
    (buf : List Nat) (bufsize : Nat) (hq : st.q = some q) (hhead : q.head = some a)
    (he : st.mem a = some e) (hv : 0 ∉ e.value) (h1 : 1 ≤ bufsize)
    (hcap : bufsize ≤ buf.length) (hsz : bufsize < SIZE_MOD) :
    ∃ b, q_remove_head st (some buf) bufsize =
        some ⟨true, ⟨some ⟨e.next, q.tail, (q.size + SIZE_MOD - 1) % SIZE_MOD⟩,
          Function.update st.mem a none⟩, some b⟩ ∧
      b.length = buf.length ∧ cstr b = e.value.take (bufsize - 1) := by
  obtain ⟨b, hcopy, hlen, hstr, _, _⟩ :=
    remove_copy_spec buf e.value (bufsize - 1) (by omega) hv
  have hb0 : bufsize ≠ 0 := by omega
  refine ⟨b, ?_, hlen, hstr⟩
  simp only [q_remove_head, hq, hhead, he, hb0, if_false, size_pred bufsize h1 hsz, hcopy,
    Option.map_some', free]

theorem update_update_none (h : Heap) (a : Nat) (x : Option list_ele_t) (hfresh : h a = none) :
    Function.update (Function.update h a x) a none = h := by
  rw [Function.update_idem, ← hfresh, Function.update_eq_self]

theorem size_succ_pred (n : Nat) (h : n < SIZE_MOD) :
    ((n + 1) % SIZE_MOD + SIZE_MOD - 1) % SIZE_MOD = n := by
  unfold SIZE_MOD at *
  omega

/-- C12: on a queue that is not absent, a `q_insert_head` of the string `s`
(no zero byte) that succeeds, `malloc` having returned an address not in
use, followed by `q_remove_head` with a buffer of capacity above `len s`:
the removal returns true, the buffer holds exactly `s`, and `q_size`, `head`
and the whole heap, so the chain from `head`, are as before the two calls. -/
theorem insert_head_remove_head_round_trip (st : Store) (q : queue_t) (s : List Nat) (a : Nat)
    (buf : List Nat) (bufsize : Nat) (hq : st.q = some q) (hfresh : st.mem a = none)
    (hs : 0 ∉ s) (hlen : s.length < bufsize) (hcap : bufsize ≤ buf.length)
    (hsz : bufsize < SIZE_MOD) (hsize : q.size < SIZE_MOD) :
    ∃ st1 r b q2, q_insert_head st s (some a) true = some (true, st1) ∧
      q_remove_head st1 (some buf) bufsize = some r ∧ r.ret = true ∧ r.sp = some b ∧
      cstr b = s ∧ q_size r.st = q_size st ∧ r.st.q = some q2 ∧ q2.head = q.head ∧
      q2.size = q.size ∧ r.st.mem = st.mem ∧
      (∀ xs, chain st.mem q.head xs → chain r.st.mem q2.head xs) := by
  have hins := q_insert_head_success st q s a hq
  obtain ⟨b, hrem, _, hstr⟩ :=
    q_remove_head_success
      ⟨some ⟨some a, if q.tail = none then some a else q.tail, (q.size + 1) % SIZE_MOD⟩,
        Function.update st.mem a (some ⟨s, q.head⟩)⟩ _ a ⟨s, q.head⟩ buf bufsize rfl rfl
      (by simp) hs (by omega) hcap hsz
  have hmem : Function.update (Function.update st.mem a (some ⟨s, q.head⟩)) a none = st.mem :=
    update_update_none st.mem a _ hfresh
  refine ⟨_, _, b, _, hins, hrem, rfl, rfl, ?_, ?_, rfl, rfl, ?_, hmem, ?_⟩
  · rw [hstr]
    exact List.take_of_length_le (by simp only; omega)
  · simp only [q_size, hq, size_succ_pred q.size hsize]
  · exact size_succ_pred q.size hsize
  · intro xs hxs
    simp only [hmem]
    exact hxs

theorem insert_head_remove_head_round_trip_witness :
    ∃ st1 r b q2, q_insert_head bacStore [120, 121] (some 7) true = some (true, st1) ∧
      q_remove_head st1 (some [0, 0, 0, 0]) 3 = some r ∧ r.ret = true ∧ r.sp = some b ∧
      cstr b = [120, 121] ∧ q_size r.st = q_size bacStore ∧ r.st.q = some q2 ∧
      q2.head = some 1 ∧ q2.size = 3 ∧ r.st.mem = bacStore.mem ∧
      (∀ xs, chain bacStore.mem (some 1) xs → chain r.st.mem q2.head xs) :=
  insert_head_remove_head_round_trip bacStore ⟨some 1, some 3, 3⟩ [120, 121] 7 [0, 0, 0, 0] 3
    rfl (by decide) (by decide) (by decide) (by decide) (by decide) (by decide)


theorem chain_not_mem_of_free {h : Heap} {p : Ptr} {xs : List Nat} (hc : chain h p xs)
    {a : Nat} (ha : h a = none) : a ∉ xs := by
  intro hmem
  obtain ⟨e, he⟩ := chain_allocated hc a hmem
  rw [ha] at he
  exact Option.noConfusion he

theorem invariant_of_wellFormed {st : Store} {xs : List Nat} (hwf : wellFormed st xs) :
    invariant st := by
  unfold wellFormed at hwf
  unfold invariant
  cases hq : st.q with
  | none => trivial
  | some q =>
    rw [hq] at hwf
    obtain ⟨hc, htail, hsize, _⟩ := hwf
    have hhead := chain_ptr_eq hc
    cases xs with
    | nil =>
      simp at hhead htail hsize
      simp [hhead, htail, hsize]
    | cons a as =>
      simp at hhead hsize
      have ht : q.tail ≠ none := by
        rw [htail]
        simp [List.getLast?_eq_getLast _ (List.cons_ne_nil a as)]
      refine ⟨by simp [hhead, hsize], by simp [hhead, ht], fun _ => ⟨a :: as, hc, ?_, htail⟩⟩
      simp [hsize]

theorem values_congr {h h2 : Heap} {xs : List Nat}
    (heq : ∀ b ∈ xs, h2 b = h b) : values h2 xs = values h xs := by
  unfold values
  apply List.map_congr_left
  intro b hb
  unfold valueAt
  rw [heq b hb]

theorem q_insert_head_wellFormed (st : Store) (xs : List Nat) (s : List Nat) (a : Nat)
    (hwf : wellFormed st xs) (hfresh : st.mem a = none) (hroom : xs.length + 1 < SIZE_MOD) :
    ∃ q, st.q = some q ∧ chain st.mem q.head xs ∧ q.tail = xs.getLast? ∧
      q.size = xs.length ∧ a ∉ xs ∧
      q_insert_head st s (some a) true =
        some (true, ⟨some ⟨some a, if q.tail = none then some a else q.tail,
          (q.size + 1) % SIZE_MOD⟩, Function.update st.mem a (some ⟨s, q.head⟩)⟩) ∧
      wellFormed ⟨some ⟨some a, if q.tail = none then some a else q.tail,
          (q.size + 1) % SIZE_MOD⟩, Function.update st.mem a (some ⟨s, q.head⟩)⟩ (a :: xs) := by
  have hwf0 := hwf
  unfold wellFormed at hwf0
  cases hq : st.q with
  | none => rw [hq] at hwf0; exact absurd hwf0 not_false
  | some q =>
    rw [hq] at hwf0
    obtain ⟨hc, htail, hsize, _⟩ := hwf0
    have ha : a ∉ xs := chain_not_mem_of_free hc hfresh
    refine ⟨q, rfl, hc, htail, hsize, ha, q_insert_head_success st q s a hq, ?_⟩
    simp only [wellFormed]
    refine ⟨?_, ?_, ?_, ?_⟩
    · rw [chain_cons_iff]
      exact ⟨rfl, ⟨s, q.head⟩, by simp, chain_congr (update_of_mem ha) hc⟩
    · cases xs with
      | nil => simp at htail; simp [htail]
      | cons b bs =>
        rw [List.getLast?_cons_cons, ← htail]
        have : q.tail ≠ none := by
          rw [htail]; simp [List.getLast?_eq_getLast _ (List.cons_ne_nil b bs)]
        simp [this]
    · rw [hsize, Nat.mod_eq_of_lt hroom, List.length_cons]
    · exact Nat.mod_lt _ (by unfold SIZE_MOD; omega)

/-- C14: on a well-formed queue with contents `xs`, `q_insert_head` of `s`
with a new element at the address `a`, which was not in use, returns true
and leaves the chain `a :: xs` from `head`, the new element holding `s` and
the values of `xs` as before; `size` is one more, `tail` is unchanged when
`xs` is not empty and is the new element when it is, and the result is well
formed and satisfies the queue invariant. -/
theorem q_insert_head_prepends (st : Store) (xs : List Nat) (s : List Nat) (a : Nat)
    (hwf : wellFormed st xs) (hfresh : st.mem a = none) (hroom : xs.length + 1 < SIZE_MOD) :
    ∃ q st2 q2, st.q = some q ∧ q_insert_head st s (some a) true = some (true, st2) ∧
      st2.q = some q2 ∧ chain st2.mem q2.head (a :: xs) ∧ q2.head = some a ∧
      values st2.mem (a :: xs) = s :: values st.mem xs ∧ q2.size = q.size + 1 ∧
      (xs ≠ [] → q2.tail = q.tail) ∧ (xs = [] → q2.tail = some a) ∧
      unchangedOff [a] st.mem st2.mem ∧ wellFormed st2 (a :: xs) ∧ invariant st2 := by
  obtain ⟨q, hq, hc, htail, hsize, ha, hins, hwf2⟩ :=
    q_insert_head_wellFormed st xs s a hwf hfresh hroom
  have hwf3 := hwf2
  simp only [wellFormed] at hwf3
  refine ⟨q, _, _, hq, hins, rfl, hwf3.1, rfl, ?_, ?_, ?_, ?_, ?_, hwf2,
    invariant_of_wellFormed hwf2⟩
  · simp only [values, List.map_cons]
    congr 1
    · simp [valueAt]
    · exact values_congr (update_of_mem ha)
  · simp only
    rw [hsize, Nat.mod_eq_of_lt hroom]
  · intro hne
    have : q.tail ≠ none := by
      rw [htail]; simp [List.getLast?_eq_getLast _ hne]
    simp [this]
  · intro hnil
    subst hnil
    simp at htail
    simp [htail]
  · intro b hb
    exact Function.update_noteq (by simpa using hb) _ _

theorem q_insert_head_prepends_witness :
    wellFormed bacStore [1, 2, 3] ∧
    ∃ q st2 q2, bacStore.q = some q ∧
      q_insert_head bacStore [120] (some 7) true = some (true, st2) ∧
      st2.q = some q2 ∧ chain st2.mem q2.head [7, 1, 2, 3] ∧ q2.head = some 7 ∧
      values st2.mem [7, 1, 2, 3] = [120] :: values bacStore.mem [1, 2, 3] ∧
      q2.size = q.size + 1 ∧ (([1, 2, 3] : List Nat) ≠ [] → q2.tail = q.tail) ∧
      (([1, 2, 3] : List Nat) = [] → q2.tail = some 7) ∧
      unchangedOff [7] bacStore.mem st2.mem ∧ wellFormed st2 [7, 1, 2, 3] ∧ invariant st2 :=
  ⟨by decide, q_insert_head_prepends bacStore [1, 2, 3] [120] 7 (by decide) (by decide)
    (by decide)⟩


theorem lseg_set_last {h : Heap} {p r0 : Ptr} {ys : List Nat} {t : Nat} {e : list_ele_t}
    (hc : lseg h p (ys ++ [t]) r0) (ht : t ∉ ys) (_he : h t = some e) (r : Ptr) :
    lseg (Function.update h t (some ⟨e.value, r⟩)) p (ys ++ [t]) r := by
  rw [lseg_append_iff] at hc ⊢
  obtain ⟨m, h1, h2⟩ := hc
  rw [lseg_cons_iff] at h2
  refine ⟨m, lseg_congr (update_of_mem ht) h1, ?_⟩
  rw [lseg_cons_iff]
  exact ⟨h2.1, ⟨e.value, r⟩, by simp, by simp [lseg_nil_iff]⟩

theorem q_insert_tail_wellFormed (st : Store) (xs : List Nat) (s : List Nat) (a : Nat)
    (hwf : wellFormed st xs) (hfresh : st.mem a = none) (hroom : xs.length + 1 < SIZE_MOD) :
    ∃ st2 q2, q_insert_tail st s (some a) true = some (true, st2) ∧
      wellFormed st2 (xs ++ [a]) ∧ st2.q = some q2 ∧ q2.tail = some a ∧
      q2.size = xs.length + 1 ∧ st2.mem a = some ⟨s, none⟩ ∧
      (∀ b, b ≠ a → (st2.mem b).map (fun e => e.value) = (st.mem b).map (fun e => e.value)) := by
  have hwf0 := hwf
  unfold wellFormed at hwf0
  cases hq : st.q with
  | none => rw [hq] at hwf0; exact absurd hwf0 not_false
  | some q =>
    rw [hq] at hwf0
    obtain ⟨hc, htail, hsize, _⟩ := hwf0
    have ha : a ∉ xs := chain_not_mem_of_free hc hfresh
    have hmod : (q.size + 1) % SIZE_MOD = xs.length + 1 := by
      rw [hsize, Nat.mod_eq_of_lt hroom]
    rcases List.eq_nil_or_concat xs with hnil | ⟨ys, t, hcat⟩
    · subst hnil
      have hhead : q.head = none := by simpa [chain_nil_iff] using hc
      have ht : q.tail = none := by simpa using htail
      refine ⟨⟨some ⟨some a, some a, (q.size + 1) % SIZE_MOD⟩,
        Function.update st.mem a (some ⟨s, none⟩)⟩, _, ?_, ?_, rfl, rfl, hmod, by simp, ?_⟩
      · simp [q_insert_tail, hq, ht]
      · simp only [wellFormed, List.nil_append]
        refine ⟨?_, by simp, by simpa using hmod, Nat.mod_lt _ (by unfold SIZE_MOD; omega)⟩
        rw [chain_cons_iff]
        exact ⟨rfl, ⟨s, none⟩, by simp, by simp [chain_nil_iff]⟩
      · intro b hb
        simp [Function.update_noteq hb]
    · rw [List.concat_eq_append] at hcat
      subst hcat
      have ht : q.tail = some t := by rw [htail, List.getLast?_concat]
      obtain ⟨et, het⟩ := chain_allocated hc t (by simp)
      have hta : t ≠ a := by
        rintro rfl
        rw [hfresh] at het
        exact Option.noConfusion het
      have hnd := chain_nodup hc
      have ht_ys : t ∉ ys := by
        intro hm
        exact (List.nodup_append.mp hnd).2.2 hm (List.mem_singleton_self t)
      have hc2 : chain (Function.update st.mem a (some ⟨s, none⟩)) q.head (ys ++ [t]) :=
        chain_congr (update_of_mem ha) hc
      have het2 : Function.update st.mem a (some ⟨s, none⟩) t = some et := by
        rw [Function.update_noteq hta]; exact het
      have hseg := lseg_set_last hc2 ht_ys het2 (some a)
      refine ⟨⟨some ⟨q.head, some a, (q.size + 1) % SIZE_MOD⟩,
        Function.update (Function.update st.mem a (some ⟨s, none⟩)) t
          (some ⟨et.value, some a⟩)⟩, _, ?_, ?_, rfl, rfl, hmod, ?_, ?_⟩
      · simp [q_insert_tail, hq, ht, store_next, het2]
      · simp only [wellFormed]
        refine ⟨?_, by simp, by simpa using hmod, Nat.mod_lt _ (by unfold SIZE_MOD; omega)⟩
        unfold chain
        rw [lseg_append_iff]
        refine ⟨some a, hseg, ?_⟩
        rw [lseg_cons_iff]
        refine ⟨rfl, ⟨s, none⟩, ?_, by simp [lseg_nil_iff]⟩
        rw [Function.update_noteq (Ne.symm hta)]
        simp
      · simp only
        rw [Function.update_noteq (Ne.symm hta)]
        simp
      · intro b hb
        simp only
        by_cases hbt : b = t
        · subst hbt
          simp [het]
        · rw [Function.update_noteq hbt, Function.update_noteq hb]

theorem values_append_new {h h2 : Heap} {xs : List Nat} {a : Nat} {s : List Nat}
    (ha : a ∉ xs) (hnew : h2 a = some ⟨s, none⟩)
    (hold : ∀ b, b ≠ a → (h2 b).map (fun e => e.value) = (h b).map (fun e => e.value)) :
    values h2 (xs ++ [a]) = values h xs ++ [s] := by
  unfold values
  rw [List.map_append]
  congr 1
  · apply List.map_congr_left
    intro b hb
    have hba : b ≠ a := fun hba => ha (hba ▸ hb)
    have := hold b hba
    unfold valueAt
    cases h1 : h b <;> cases h3 : h2 b <;> simp [h1, h3] at this ⊢
    exact this
  · simp [valueAt, hnew]


/-- C13: on a well-formed queue with contents `xs`, `q_insert_tail` of `a`
and then of `b`, with new elements at the addresses `n1` and `n2` that were
not in use, both return true and leave the contents `xs ++ [n1, n2]` holding
the former values followed by `a` and `b`; `tail` is the element holding `b`
and `size` has grown by 2. When `xs` is empty, two calls of `q_remove_head`
then return true and copy out `a` and then `b`. -/
theorem q_insert_tail_fifo (st : Store) (xs : List Nat) (a b : List Nat) (n1 n2 : Nat)
    (hwf : wellFormed st xs) (hf1 : st.mem n1 = none) (hf2 : st.mem n2 = none)
    (hne : n1 ≠ n2) (hroom : xs.length + 2 < SIZE_MOD) :
    ∃ q st1 st2 q2, st.q = some q ∧ q_insert_tail st a (some n1) true = some (true, st1) ∧
      q_insert_tail st1 b (some n2) true = some (true, st2) ∧
      wellFormed st2 (xs ++ [n1, n2]) ∧
      values st2.mem (xs ++ [n1, n2]) = values st.mem xs ++ [a, b] ∧
      st2.q = some q2 ∧ q2.tail = some n2 ∧ valueAt st2.mem n2 = b ∧
      q2.size = q.size + 2 ∧
      (xs = [] → ∀ (buf1 buf2 : List Nat) (cap1 cap2 : Nat), 0 ∉ a → 0 ∉ b →
        a.length < cap1 → cap1 ≤ buf1.length → cap1 < SIZE_MOD →
        b.length < cap2 → cap2 ≤ buf2.length → cap2 < SIZE_MOD →
        ∃ r1 b1 r2 b2, q_remove_head st2 (some buf1) cap1 = some r1 ∧ r1.ret = true ∧
          r1.sp = some b1 ∧ cstr b1 = a ∧
          q_remove_head r1.st (some buf2) cap2 = some r2 ∧ r2.ret = true ∧
          r2.sp = some b2 ∧ cstr b2 = b) := by
  have hwf0 := hwf
  unfold wellFormed at hwf0
  cases hq : st.q with
  | none => rw [hq] at hwf0; exact absurd hwf0 not_false
  | some q =>
  rw [hq] at hwf0
  obtain ⟨hc, _, hsize, _⟩ := hwf0
  have hn1 : n1 ∉ xs := chain_not_mem_of_free hc hf1
  obtain ⟨st1, q1, hins1, hwf1, _, _, _, hnew1, hold1⟩ :=
    q_insert_tail_wellFormed st xs a n1 hwf hf1 (by omega)
  have hf2b : st1.mem n2 = none := by
    have := hold1 n2 (Ne.symm hne)
    rw [hf2] at this
    cases h2 : st1.mem n2 with
    | none => rfl
    | some e => rw [h2] at this; simp at this
  have hwf1b := hwf1
  simp only [wellFormed] at hwf1b
  obtain ⟨st2, q2, hins2, hwf2, hq2, htail2, hsize2, hnew2, hold2⟩ :=
    q_insert_tail_wellFormed st1 (xs ++ [n1]) b n2 hwf1 hf2b
      (by simp only [List.length_append, List.length_singleton]; omega)
  have hlist : xs ++ [n1] ++ [n2] = xs ++ [n1, n2] := by simp
  rw [hlist] at hwf2
  have hq1c : chain st1.mem (xs ++ [n1]).head? (xs ++ [n1]) := by
    cases hq1 : st1.q with
    | none => rw [hq1] at hwf1b; exact absurd hwf1b not_false
    | some q1b =>
      rw [hq1] at hwf1b
      rw [← chain_ptr_eq hwf1b.1]; exact hwf1b.1
  have hn2 : n2 ∉ xs ++ [n1] := chain_not_mem_of_free hq1c hf2b
  have hvals : values st2.mem (xs ++ [n1, n2]) = values st.mem xs ++ [a, b] := by
    rw [← hlist, values_append_new hn2 hnew2 hold2, values_append_new hn1 hnew1 hold1]
    simp
  refine ⟨q, st1, st2, q2, rfl, hins1, hins2, hwf2, hvals, hq2, htail2,
    by simp [valueAt, hnew2], ?_, ?_⟩
  · rw [hsize2, hsize]; simp
  · intro hnil buf1 buf2 cap1 cap2 ha hb ha1 ha2 ha3 hb1 hb2 hb3
    subst hnil
    have hwf3 := hwf2
    simp only [wellFormed, hq2, List.nil_append] at hwf3
    have hch := hwf3.1
    rw [chain_cons_iff] at hch
    obtain ⟨hhead, e1, he1, hch⟩ := hch
    rw [chain_cons_iff] at hch
    obtain ⟨hnext, e2, he2, _⟩ := hch
    simp only [List.nil_append, values, List.map_cons, List.map_nil, valueAt, he1, he2,
      List.cons.injEq, and_true] at hvals
    obtain ⟨hva, hvb⟩ := hvals
    obtain ⟨b1, hrem1, _, hstr1⟩ :=
      q_remove_head_success st2 q2 n1 e1 buf1 cap1 hq2 hhead he1 (by rw [hva]; exact ha)
        (by omega) ha2 ha3
    obtain ⟨b2, hrem2, _, hstr2⟩ :=
      q_remove_head_success
        ⟨some ⟨e1.next, q2.tail, (q2.size + SIZE_MOD - 1) % SIZE_MOD⟩,
          Function.update st2.mem n1 none⟩ _ n2 e2 buf2 cap2 rfl hnext
        (by simp only; rw [Function.update_noteq (Ne.symm hne)]; exact he2)
        (by rw [hvb]; exact hb) (by omega) hb2 hb3
    refine ⟨_, b1, _, b2, hrem1, rfl, rfl, ?_, hrem2, rfl, rfl, ?_⟩
    · rw [hstr1, hva]
      exact List.take_of_length_le (by omega)
    · rw [hstr2, hvb]
      exact List.take_of_length_le (by omega)

theorem q_insert_tail_fifo_witness :
    wellFormed fresh [] ∧
    ∃ q st1 st2 q2, fresh.q = some q ∧
      q_insert_tail fresh [97] (some 1) true = some (true, st1) ∧
      q_insert_tail st1 [98] (some 2) true = some (true, st2) ∧
      wellFormed st2 [1, 2] ∧ values st2.mem [1, 2] = [[97], [98]] ∧
      st2.q = some q2 ∧ q2.tail = some 2 ∧ valueAt st2.mem 2 = [98] ∧ q2.size = q.size + 2 ∧
      ∃ r1 b1 r2 b2, q_remove_head st2 (some [7, 7]) 2 = some r1 ∧ r1.ret = true ∧
          r1.sp = some b1 ∧ cstr b1 = [97] ∧
          q_remove_head r1.st (some [7, 7, 7]) 3 = some r2 ∧ r2.ret = true ∧
          r2.sp = some b2 ∧ cstr b2 = [98] := by
  obtain ⟨q, st1, st2, q2, h1, h2, h3, h4, h5, h6, h7, h8, h9, h10⟩ :=
    q_insert_tail_fifo fresh [] [97] [98] 1 2 (by decide) (by decide) (by decide) (by decide)
      (by decide)
  exact ⟨by decide, q, st1, st2, q2, h1, h2, h3, h4, h5, h6, h7, h8, h9,
    h10 rfl [7, 7] [7, 7, 7] 2 3 (by decide) (by decide) (by decide) (by decide) (by decide)
      (by decide) (by decide) (by decide)⟩


/-- C15: `q_insert_head` and `q_insert_tail` return false when the queue is
absent, when `malloc` fails and when `strdup` fails, and the state after
such a call is the state before it (an address `malloc` returns was not in
use). Otherwise `q_insert_head` returns true, and `q_insert_tail` returns
true whenever its result is defined, which it is when `tail` is `NULL` or
points at an allocated element. -/
theorem insert_failure_atomic (st : Store) (s : List Nat) (p : Ptr) (dup : Bool)
    (hfresh : ∀ a, p = some a → st.mem a = none) :
    ((st.q = none ∨ p = none ∨ dup = false) →
      q_insert_head st s p dup = some (false, st) ∧
      q_insert_tail st s p dup = some (false, st)) ∧
    ((st.q ≠ none ∧ p ≠ none ∧ dup = true) →
      (∃ st2, q_insert_head st s p dup = some (true, st2)) ∧
      (∀ r, q_insert_tail st s p dup = some r → r.1 = true) ∧
      ((∀ q t, st.q = some q → q.tail = some t → ∃ e, st.mem t = some e) →
        ∃ st2, q_insert_tail st s p dup = some (true, st2))) := by
  obtain ⟨sq, mem⟩ := st
  constructor
  · intro hfail
    cases sq with
    | none => simp [q_insert_head, q_insert_tail]
    | some q =>
      cases p with
      | none => simp [q_insert_head, q_insert_tail]
      | some a =>
        have hd : dup = false := by
          rcases hfail with h | h | h
          · exact Option.noConfusion h
          · exact Option.noConfusion h
          · exact h
        have hmem : Function.update (Function.update mem a (some ⟨[], none⟩)) a none = mem :=
          update_update_none mem a _ (hfresh a rfl)
        subst hd
        constructor <;> simp [q_insert_head, q_insert_tail, free, hmem]
  · rintro ⟨hq, hp, hd⟩
    cases sq with
    | none => exact absurd rfl hq
    | some q =>
      cases p with
      | none => exact absurd rfl hp
      | some a =>
        subst hd
        refine ⟨⟨_, q_insert_head_success ⟨some q, mem⟩ q s a rfl⟩, ?_, ?_⟩
        · intro r hr
          cases ht : q.tail with
          | none =>
            simp [q_insert_tail, ht] at hr
            rw [← hr]
          | some t =>
            simp only [q_insert_tail, ht, Bool.true_eq_false, if_false] at hr
            cases hs : store_next
                (Function.update (Function.update mem a (some ⟨[], none⟩)) a (some ⟨s, none⟩))
                t (some a) with
            | none => rw [hs] at hr; exact Option.noConfusion hr
            | some m =>
              rw [hs] at hr
              simp only [Option.map_some', Option.some.injEq] at hr
              rw [← hr]
        · intro halloc
          cases ht : q.tail with
          | none =>
            exact ⟨⟨some ⟨some a, some a, (q.size + 1) % SIZE_MOD⟩,
              Function.update mem a (some ⟨s, none⟩)⟩, by simp [q_insert_tail, ht]⟩
          | some t =>
            obtain ⟨e, he⟩ := halloc q t rfl ht
            have hta : t ≠ a := by
              rintro rfl
              rw [hfresh t rfl] at he
              exact Option.noConfusion he
            refine ⟨⟨some ⟨q.head, some a, (q.size + 1) % SIZE_MOD⟩,
              Function.update (Function.update mem a (some ⟨s, none⟩)) t
                (some ⟨e.value, some a⟩)⟩, ?_⟩
            simp only at he
            simp [q_insert_tail, ht, store_next, Function.update_noteq hta, he]

theorem insert_failure_atomic_witness :
    (q_insert_head bacStore [120] (some 7) false = some (false, bacStore) ∧
      q_insert_tail bacStore [120] (some 7) false = some (false, bacStore)) ∧
    (q_insert_head bacStore [120] none true = some (false, bacStore) ∧
      q_insert_tail bacStore [120] none true = some (false, bacStore)) :=
  ⟨(insert_failure_atomic bacStore [120] (some 7) false
      (fun a ha => by cases ha; decide)).1 (Or.inr (Or.inr rfl)),
    (insert_failure_atomic bacStore [120] none true
      (fun a ha => Option.noConfusion ha)).1 (Or.inr (Or.inl rfl))⟩

/-- C16: `q_remove_head` returns false exactly when the queue is absent or
its `head` is `NULL`, and then the state and the caller's buffer are what
they were before the call. -/
theorem q_remove_head_fails_without_effect (st : Store) (sp : Option (List Nat))
    (bufsize : Nat) :
    ((st.q = none ∨ ∃ q, st.q = some q ∧ q.head = none) →
      q_remove_head st sp bufsize = some ⟨false, st, sp⟩) ∧
    (∀ r, q_remove_head st sp bufsize = some r →
      (r.ret = false ↔ (st.q = none ∨ ∃ q, st.q = some q ∧ q.head = none))) := by
  constructor
  · rintro (h0 | ⟨q, h0, hh⟩)
    · simp [q_remove_head, h0]
    · simp [q_remove_head, h0, hh]
  · intro r hr
    cases hq : st.q with
    | none =>
      simp [q_remove_head, hq] at hr
      rw [← hr]; simp
    | some q =>
      cases hh : q.head with
      | none =>
        simp [q_remove_head, hq, hh] at hr
        rw [← hr]; simp [hh]
      | some a =>
        have hret : r.ret = true := by
          simp only [q_remove_head, hq, hh] at hr
          cases he : st.mem a with
          | none => rw [he] at hr; exact Option.noConfusion hr
          | some e =>
            rw [he] at hr
            simp only [free, he] at hr
            split at hr
            · exact Option.noConfusion hr
            · simp only [Option.map_some', Option.some.injEq] at hr
              rw [← hr]
        simp [hret, hh]

theorem q_remove_head_fails_without_effect_witness :
    q_remove_head fresh (some [7, 7]) 2 = some ⟨false, fresh, some [7, 7]⟩ :=
  (q_remove_head_fails_without_effect fresh (some [7, 7]) 2).1 (Or.inr ⟨_, rfl, rfl⟩)

/-- C17: on a chain of `n` elements, `n` at least 1, `split` returns (with
fuel above half the length) the first `(n + 1) / 2` elements as the front
chain and the other `n / 2` as the back chain, each in the original order:
the two share no element and the front followed by the back is the input.
When `n` is at least 2 both are non-empty and shorter than `n`. -/
theorem split_halves (h : Heap) (a : Nat) (xs : List Nat) (fuel : Nat)
    (hc : chain h (some a) (a :: xs)) (hfuel : xs.length / 2 < fuel) :
    ∃ h2 back F B, split fuel h (some a) = some (h2, some a, back) ∧
      chain h2 (some a) F ∧ chain h2 back B ∧
      F = (a :: xs).take (((a :: xs).length + 1) / 2) ∧
      B = (a :: xs).drop (((a :: xs).length + 1) / 2) ∧
      F.length = ((a :: xs).length + 1) / 2 ∧ B.length = (a :: xs).length / 2 ∧
      F ++ B = a :: xs ∧ (∀ c ∈ F, c ∉ B) ∧ sameValues h h2 ∧
      unchangedOff (a :: xs) h h2 ∧
      (2 ≤ (a :: xs).length →
        F ≠ [] ∧ B ≠ [] ∧ F.length < (a :: xs).length ∧ B.length < (a :: xs).length) := by
  obtain ⟨h2, back, hsplit, hfront, hback, hoff, hsame⟩ := split_spec h a xs fuel hc hfuel
  have hk : ((a :: xs).length + 1) / 2 = xs.length / 2 + 1 := by
    simp only [List.length_cons]; omega
  have hnd := chain_nodup hc
  rw [← hk] at hfront hback
  generalize ((a :: xs).length + 1) / 2 = k at hfront hback hk
  have hlenF : ((a :: xs).take k).length = k := by
    rw [List.length_take, List.length_cons]; omega
  have hlenB : ((a :: xs).drop k).length = (a :: xs).length / 2 := by
    rw [List.length_drop, List.length_cons]; omega
  refine ⟨h2, back, _, _, hsplit, hfront, hback, rfl, rfl, hlenF, hlenB,
    List.take_append_drop _ _, ?_, hsame, hoff, ?_⟩
  · intro c hc1 hc2
    rw [← List.take_append_drop k (a :: xs)] at hnd
    exact (List.nodup_append.mp hnd).2.2 hc1 hc2
  · intro h2le
    rw [List.length_cons] at h2le
    refine ⟨?_, ?_, ?_, ?_⟩
    · intro hnil
      rw [hnil] at hlenF
      simp at hlenF; omega
    · intro hnil
      rw [hnil] at hlenB
      simp at hlenB; omega
    · rw [hlenF, List.length_cons]; omega
    · rw [hlenB, List.length_cons]; omega

theorem split_halves_witness :
    chain bacStore.mem (some 1) [1, 2, 3] ∧
    ∃ h2 back F B, split 2 bacStore.mem (some 1) = some (h2, some 1, back) ∧
      chain h2 (some 1) F ∧ chain h2 back B ∧
      F = ([1, 2, 3] : List Nat).take ((([1, 2, 3] : List Nat).length + 1) / 2) ∧
      B = ([1, 2, 3] : List Nat).drop ((([1, 2, 3] : List Nat).length + 1) / 2) ∧
      F.length = (([1, 2, 3] : List Nat).length + 1) / 2 ∧
      B.length = ([1, 2, 3] : List Nat).length / 2 ∧
      F ++ B = [1, 2, 3] ∧ (∀ c ∈ F, c ∉ B) ∧ sameValues bacStore.mem h2 ∧
      unchangedOff [1, 2, 3] bacStore.mem h2 ∧
      (2 ≤ ([1, 2, 3] : List Nat).length →
        F ≠ [] ∧ B ≠ [] ∧ F.length < ([1, 2, 3] : List Nat).length ∧
          B.length < ([1, 2, 3] : List Nat).length) :=
  ⟨by decide, split_halves bacStore.mem 1 [2, 3] 2 (by decide) (by decide)⟩

/-- C18: on a well-formed queue with contents `xs`, not empty, `q_sort`
followed by `q_insert_tail` of `s`, with a new element at an address `a` not
in use, both return, the insertion with true, and then the chain from `head`
is the new element alone: `head` and `tail` are `a`, which holds `s` with
`next` `NULL`, and `size` is one more than the length of `xs`, whose elements
are all still allocated and are not on the chain. -/
theorem q_insert_tail_after_sort (st : Store) (xs : List Nat) (s : List Nat) (a : Nat)
    (fuel : Nat) (hwf : wellFormed st xs) (hne : xs ≠ []) (hfuel : xs.length < fuel)
    (hfresh : st.mem a = none) (hroom : xs.length + 1 < SIZE_MOD) :
    ∃ st1 q1 ys st2, q_sort fuel st = some st1 ∧ st1.q = some q1 ∧
      chain st1.mem q1.head ys ∧ ys.Perm xs ∧
      q_insert_tail st1 s (some a) true = some (true, st2) ∧
      st2.q = some ⟨some a, some a, xs.length + 1⟩ ∧ chain st2.mem (some a) [a] ∧
      st2.mem a = some ⟨s, none⟩ ∧ (∀ b ∈ xs, b ∉ [a] ∧ ∃ e, st2.mem b = some e) := by
  have hwf0 := hwf
  unfold wellFormed at hwf0
  cases hq : st.q with
  | none => rw [hq] at hwf0; exact absurd hwf0 not_false
  | some q =>
  rw [hq] at hwf0
  obtain ⟨hc, _, hsize, _⟩ := hwf0
  obtain ⟨st1, hrun, hcase, hsame, _⟩ := q_sort_spec st q xs fuel hq hc hfuel
  rcases hcase with ⟨hnil, _⟩ | ⟨_, p2, hq1, hch⟩
  · exact absurd hnil hne
  · have ha : a ∉ xs := chain_not_mem_of_free hc hfresh
    refine ⟨st1, _, _, ⟨some ⟨some a, some a, (q.size + 1) % SIZE_MOD⟩,
      Function.update st1.mem a (some ⟨s, none⟩)⟩, hrun, hq1, hch,
      sortAddrs_perm _ _ _ le_rfl, ?_, ?_, ?_, by simp, ?_⟩
    · simp [q_insert_tail, hq1]
    · simp only
      rw [hsize, Nat.mod_eq_of_lt hroom]
    · rw [chain_cons_iff]
      exact ⟨rfl, ⟨s, none⟩, by simp, by simp [chain_nil_iff]⟩
    · intro b hb
      have hba : b ≠ a := fun hba => ha (hba ▸ hb)
      obtain ⟨e, he⟩ := chain_allocated hc b hb
      have hv := hsame b
      rw [he] at hv
      refine ⟨by simpa using hba, ?_⟩
      simp only
      rw [Function.update_noteq hba]
      cases h1 : st1.mem b with
      | none => rw [h1] at hv; simp at hv
      | some e1 => exact ⟨e1, rfl⟩

theorem q_insert_tail_after_sort_witness :
    wellFormed bacStore [1, 2, 3] ∧
    ∃ st1 q1 ys st2, q_sort 4 bacStore = some st1 ∧ st1.q = some q1 ∧
      chain st1.mem q1.head ys ∧ ys.Perm [1, 2, 3] ∧
      q_insert_tail st1 [120] (some 7) true = some (true, st2) ∧
      st2.q = some ⟨some 7, some 7, ([1, 2, 3] : List Nat).length + 1⟩ ∧
      chain st2.mem (some 7) [7] ∧ st2.mem 7 = some ⟨[120], none⟩ ∧
      (∀ b ∈ ([1, 2, 3] : List Nat), b ∉ [7] ∧ ∃ e, st2.mem b = some e) :=
  ⟨by decide, q_insert_tail_after_sort bacStore [1, 2, 3] [120] 7 4 (by decide) (by decide)
    (by decide) (by decide) (by decide)⟩

/-- C20: on a queue whose `head` is an allocated element, `q_remove_head`
with a buffer that is not `NULL` and `bufsize` zero returns true, moves
`head` to the next element and frees the removed one, and leaves the buffer,
whatever its length, as it was: `bufsize - 1`, which would be the largest
`size_t` value, is not used. -/
theorem q_remove_head_zero_capacity (st : Store) (q : queue_t) (a : Nat) (e : list_ele_t)
    (buf : List Nat) (hq : st.q = some q) (hhead : q.head = some a)
    (he : st.mem a = some e) :
    q_remove_head st (some buf) 0 =
        some ⟨true, ⟨some ⟨e.next, q.tail, (q.size + SIZE_MOD - 1) % SIZE_MOD⟩,
          Function.update st.mem a none⟩, some buf⟩ ∧
      (0 + SIZE_MOD - 1) % SIZE_MOD = SIZE_MOD - 1 ∧
      (buf.length < SIZE_MOD → store_byte buf ((0 + SIZE_MOD - 1) % SIZE_MOD) 0 = none) := by
  refine ⟨by simp [q_remove_head, hq, hhead, he, free], by unfold SIZE_MOD; omega, ?_⟩
  intro hlen
  have hidx : (0 + SIZE_MOD - 1) % SIZE_MOD = SIZE_MOD - 1 := by unfold SIZE_MOD; omega
  rw [hidx]
  unfold store_byte
  rw [if_neg (by omega)]

theorem q_remove_head_zero_capacity_witness :
    q_remove_head bananaStore (some []) 0 =
      some ⟨true, ⟨some ⟨none, some 1, (1 + SIZE_MOD - 1) % SIZE_MOD⟩,
        Function.update bananaStore.mem 1 none⟩, some []⟩ :=
  (q_remove_head_zero_capacity bananaStore ⟨some 1, some 1, 1⟩ 1
    ⟨[98, 97, 110, 97, 110, 97], none⟩ [] rfl rfl rfl).1


theorem mergeAddrs_right_first (v : Nat → List Nat) (xs : List Nat) : ∀ (ys : List Nat),
    (∀ x ∈ xs, ∀ y ∈ ys, takesLeft v x y = false) → mergeAddrs v xs ys = ys ++ xs
  | [], _ => by simp [mergeAddrs]
  | y :: ys, hno => by
    cases xs with
    | nil => simp [mergeAddrs]
    | cons x xs1 =>
      have hxy : ¬ takesLeft v x y = true := by
        rw [hno x (List.mem_cons_self _ _) y (List.mem_cons_self _ _)]
        exact Bool.false_ne_true
      have ih := mergeAddrs_right_first v (x :: xs1) ys
        (fun a ha b hb => hno a ha b (List.mem_cons_of_mem _ hb))
      unfold mergeAddrs at ih ⊢
      rw [List.cons_merge_cons_neg _ _ _ hxy, ih]
      rfl

theorem takesLeft_of_eq (v : Nat → List Nat) (a b : Nat) (h : v a = v b) :
    takesLeft v a b = false := by
  unfold takesLeft
  rw [h, strcmp_self]
  decide

theorem sortAddrs_ties (v : Nat → List Nat) : ∀ (n : Nat) (xs : List Nat), xs.length ≤ n →
    (∀ a ∈ xs, ∀ b ∈ xs, v a = v b) → sortAddrs v xs = xs.reverse := by
  intro n
  induction n with
  | zero =>
    intro xs hn _
    have : xs = [] := List.length_eq_zero.mp (by omega)
    subst this
    rw [sortAddrs_small v [] (by simp)]
    rfl
  | succ n ih =>
    intro xs hn heq
    by_cases hsmall : xs.length < 2
    · rw [sortAddrs_small v xs hsmall]
      match xs, hsmall with
      | [], _ => rfl
      | [a], _ => rfl
      | _ :: _ :: _, h => exact absurd h (by simp)
    · rw [sortAddrs_large v xs (by omega)]
      have hL := ih (xs.take ((xs.length + 1) / 2)) (by simp; omega)
        (fun a ha b hb => heq a (List.mem_of_mem_take ha) b (List.mem_of_mem_take hb))
      have hR := ih (xs.drop ((xs.length + 1) / 2)) (by simp; omega)
        (fun a ha b hb => heq a (List.mem_of_mem_drop ha) b (List.mem_of_mem_drop hb))
      rw [hL, hR, mergeAddrs_right_first]
      · rw [← List.reverse_append, List.take_append_drop]
      · intro x hx y hy
        exact takesLeft_of_eq v x y
          (heq x (List.mem_of_mem_take (List.mem_reverse.mp hx)) y
            (List.mem_of_mem_drop (List.mem_reverse.mp hy)))

/-- C19: when the heads of the two lists compare equal, `merge_list` links
the head of the right list first. So on a chain `xs` whose elements all hold
the same value, `merge_sort` and `q_sort` return (with fuel above the length)
and leave the same elements in the order `xs.reverse`: a queue of two
elements with equal values has them swapped. -/
theorem sort_reverses_ties (st : Store) (q : queue_t) (xs : List Nat) (fuel : Nat)
    (hq : st.q = some q) (hc : chain st.mem q.head xs)
    (heq : ∀ a ∈ xs, ∀ b ∈ xs, valueAt st.mem a = valueAt st.mem b)
    (hfuel : xs.length < fuel) :
    (∃ h2 p2, merge_sort fuel st.mem q.head = some (h2, p2) ∧ chain h2 p2 xs.reverse ∧
      sameValues st.mem h2) ∧
    (∃ st2 q2, q_sort fuel st = some st2 ∧ st2.q = some q2 ∧
      chain st2.mem q2.head xs.reverse ∧ sameValues st.mem st2.mem) ∧
    (∀ (h : Heap) (l r : Ptr) (x y : Nat) (ls rs : List Nat) (n : Nat),
      chain h l (x :: ls) → chain h r (y :: rs) → (∀ c ∈ x :: ls, c ∉ y :: rs) →
      strcmp (valueAt h x) (valueAt h y) = 0 → (x :: ls).length + (y :: rs).length ≤ n →
      ∃ h2 zs, merge_list n h l r = some (h2, some y) ∧ chain h2 (some y) (y :: zs) ∧
        zs.Perm (x :: ls ++ rs)) := by
  have hties := sortAddrs_ties (valueAt st.mem) _ xs le_rfl heq
  refine ⟨?_, ?_, ?_⟩
  · obtain ⟨h2, p2, hms, hch, hsame, _⟩ := merge_sort_spec fuel xs st.mem q.head hc hfuel
    rw [hties] at hch
    exact ⟨h2, p2, hms, hch, hsame⟩
  · obtain ⟨st2, hrun, hcase, hsame, _⟩ := q_sort_spec st q xs fuel hq hc hfuel
    rcases hcase with ⟨hnil, hst⟩ | ⟨_, p2, hq2, hch⟩
    · subst hnil
      rw [hst] at hrun
      exact ⟨st, q, hrun, hq, by simpa using hc, sameValues_refl _⟩
    · rw [hties] at hch
      exact ⟨st2, _, hrun, hq2, hch, hsame⟩
  · intro h l r x y ls rs n hl hr hd hzero hn
    obtain ⟨h2, p2, hml, hch, _, _⟩ := merge_list_spec h l r (x :: ls) (y :: rs) n hl hr hd hn
    have hxy : ¬ takesLeft (valueAt h) x y = true := by
      unfold takesLeft
      rw [hzero]
      decide
    have hm : mergeAddrs (valueAt h) (x :: ls) (y :: rs) =
        y :: mergeAddrs (valueAt h) (x :: ls) rs := by
      unfold mergeAddrs
      rw [List.cons_merge_cons_neg _ _ _ hxy]
    rw [hm] at hch
    have hp2 : p2 = some y := by
      rw [chain_cons_iff] at hch; exact hch.1
    subst hp2
    exact ⟨h2, _, hml, hch, mergeAddrs_perm _ _ _⟩

theorem sort_reverses_ties_witness :
    chain tieStore.mem (some 1) [1, 2] ∧
    (∃ h2 p2, merge_sort 3 tieStore.mem (some 1) = some (h2, p2) ∧ chain h2 p2 [2, 1] ∧
      sameValues tieStore.mem h2) ∧
    (∃ st2 q2, q_sort 3 tieStore = some st2 ∧ st2.q = some q2 ∧
      chain st2.mem q2.head [2, 1] ∧ sameValues tieStore.mem st2.mem) := by
  have h := sort_reverses_ties tieStore ⟨some 1, some 2, 2⟩ [1, 2] 3 rfl (by decide)
    (by decide) (by decide)
  exact ⟨by decide, h.1, h.2.1⟩

end Queue
